import Mathlib

/-!
Verification of the core modules of the Smart-Expense-Tracker repository:
the state store (`js/modules/store.js`), the hash router
(`js/modules/router.js`) and the query/aggregation utilities
(`js/modules/charts.js`, `js/modules/components.js`).

The JavaScript sources are shallowly embedded: plain objects used as
string-keyed maps become association lists (insertion-ordered, existing
keys keep their position on re-assignment, exactly like JS property
assignment), `Map`/`Set` registries become association lists of
duplicate-free callback-identifier lists (callback identity is a `Nat`),
and the side effects of notification code are reified as explicit event
traces.  Fallible operations (a JS `throw`) return `Option`.
-/

namespace ExpenseTracker

/-- JS object property read: `obj[key]`, `undefined` becomes `none`. -/
def lookupKey {V : Type} : List (String × V) → String → Option V
  | [], _ => none
  | (k, v) :: rest, key => if k = key then some v else lookupKey rest key

/-- JS object property assignment `obj[key] = value`: an existing key keeps
its position and gets the new value, a new key is appended (JS insertion
order for string keys). -/
def setKey {V : Type} : List (String × V) → String → V → List (String × V)
  | [], key, value => [(key, value)]
  | (k, v) :: rest, key, value =>
      if k = key then (k, value) :: rest else (k, v) :: setKey rest key value

theorem lookupKey_setKey_self {V : Type} (l : List (String × V)) (key : String) (value : V) :
    lookupKey (setKey l key value) key = some value := by
  induction l with
  | nil => simp [setKey, lookupKey]
  | cons kv rest ih =>
      by_cases h : kv.1 = key
      · simp [setKey, h, lookupKey]
      · simp [setKey, h, lookupKey, ih]

theorem lookupKey_setKey_other {V : Type} (l : List (String × V)) (key other : String)
    (value : V) (hne : other ≠ key) :
    lookupKey (setKey l key value) other = lookupKey l other := by
  have hko : ¬ key = other := fun hh => hne hh.symm
  induction l with
  | nil => simp [setKey, lookupKey, hko]
  | cons kv rest ih =>
      obtain ⟨k, v⟩ := kv
      by_cases h : k = key
      · subst h
        simp [setKey, lookupKey, hko]
      · by_cases h2 : k = other
        · simp [setKey, h, lookupKey, h2, hne]
        · simp [setKey, h, lookupKey, h2, ih]

/-! ## State store — `class Store` in `js/modules/store.js`

`_state` is the state object, `_listeners` the `Map<string, Set<callback>>`
of subscribers (a `Set` iterates in insertion order and deduplicates, so it
is embedded as an insertion-ordered duplicate-free list of callback ids),
`_middlewares` the middleware array.  Callbacks and middlewares are opaque
to the store: they are represented by identifiers and their invocations are
recorded as events. -/

structure Store (V : Type) where
  state : List (String × V)
  listeners : List (String × List Nat)
  middlewares : List Nat

/-- One observable callback invocation performed by the store. -/
inductive Event (V : Type) where
  /-- `middleware({ key, oldValue, newValue, state })` -/
  | middlewareCall (mid : Nat) (key : String) (oldValue : Option V) (newValue : V)
      (state : List (String × V))
  /-- a per-key subscriber call `callback(value, oldValue)` -/
  | keySubCall (cb : Nat) (newValue : V) (oldValue : Option V)
  /-- a wildcard subscriber call `callback(this._state, key)` from `setState` -/
  | wildcardCallKey (cb : Nat) (state : List (String × V)) (key : String)
  /-- a wildcard subscriber call `callback(this._state, Object.keys(updates))`
  from `batchUpdate` -/
  | wildcardCallKeys (cb : Nat) (state : List (String × V)) (keys : List String)
  deriving DecidableEq

/-- The subscribers registered for `key`: `this._listeners.get(key)`,
an absent entry behaving as the empty collection. -/
def listenersFor {V : Type} (s : Store V) (key : String) : List Nat :=
  (lookupKey s.listeners key).getD []

/-- `Store.setState(key, value)`: capture the old value, assign the new
value, run every middleware, notify the subscribers of `key`, then notify
the wildcard (`'*'`) subscribers.  Returns the new store and the trace of
callback invocations in execution order. -/
def setState {V : Type} (s : Store V) (key : String) (value : V) :
    Store V × List (Event V) :=
  let oldValue := lookupKey s.state key
  let newState := setKey s.state key value
  let mwEvents := s.middlewares.map
    (fun m => Event.middlewareCall m key oldValue value newState)
  let keyEvents := (listenersFor s key).map
    (fun cb => Event.keySubCall cb value oldValue)
  let wcEvents := (listenersFor s "*").map
    (fun cb => Event.wildcardCallKey cb newState key)
  ({ s with state := newState }, mwEvents ++ keyEvents ++ wcEvents)

/-- `Store.subscribe(key, callback)` registration effect: create the `Set`
for `key` if absent, then `Set.add(callback)` — appended in insertion order,
a no-op if the callback is already registered for that key. -/
def subscribe {V : Type} (s : Store V) (key : String) (cb : Nat) : Store V :=
  let cur := (lookupKey s.listeners key).getD []
  let newList := if cur.contains cb then cur else cur ++ [cb]
  { s with listeners := setKey s.listeners key newList }

/-- The disposer returned by `Store.subscribe`:
`() => this._listeners.get(key).delete(callback)`.  When the `Map` has no
entry for `key`, `get` yields `undefined` and the call throws (`none`);
otherwise the callback is removed from the `Set` (removing the first — and
under the `Set` invariant only — occurrence). -/
def unsubscribe {V : Type} (s : Store V) (key : String) (cb : Nat) : Option (Store V) :=
  match lookupKey s.listeners key with
  | none => none
  | some l => some { s with listeners := setKey s.listeners key (l.erase cb) }

/-- `Store.use(middleware)`: append to the middleware chain. -/
def use {V : Type} (s : Store V) (m : Nat) : Store V :=
  { s with middlewares := s.middlewares ++ [m] }

/-- `Store.batchUpdate(updates)`: assign every pair directly, then notify
only the wildcard subscribers, once each, with the updated state and
`Object.keys(updates)`.  `updates` is embedded as its entry list (unique
keys, insertion order — the shape `Object.entries` yields). -/
def batchUpdate {V : Type} (s : Store V) (updates : List (String × V)) :
    Store V × List (Event V) :=
  let newState := updates.foldl (fun st kv => setKey st kv.1 kv.2) s.state
  let wcEvents := (listenersFor s "*").map
    (fun cb => Event.wildcardCallKeys cb newState (updates.map (·.1)))
  ({ s with state := newState }, wcEvents)

/-- Recognizer for per-key subscriber invocations of callback `cb`. -/
def isKeySubOf {V : Type} (cb : Nat) : Event V → Bool
  | .keySubCall c _ _ => c == cb
  | _ => false

/-- Recognizer for any per-key subscriber invocation. -/
def isKeySubEvent {V : Type} : Event V → Bool
  | .keySubCall _ _ _ => true
  | _ => false

/-- Recognizer for any middleware invocation. -/
def isMiddlewareEvent {V : Type} : Event V → Bool
  | .middlewareCall _ _ _ _ _ => true
  | _ => false

/-- Recognizer for wildcard subscriber invocations of callback `cb`. -/
def isWildcardCallOf {V : Type} (cb : Nat) : Event V → Bool
  | .wildcardCallKey c _ _ => c == cb
  | .wildcardCallKeys c _ _ => c == cb
  | _ => false

theorem setKey_setKey_same {V : Type} (l : List (String × V)) (key : String) (v w : V) :
    setKey (setKey l key v) key w = setKey l key w := by
  induction l with
  | nil => simp [setKey]
  | cons kv rest ih =>
      obtain ⟨k, x⟩ := kv
      by_cases h : k = key
      · simp [setKey, h]
      · simp [setKey, h, ih]

theorem lookupKey_foldl_setKey_notmem {V : Type} (updates : List (String × V))
    (st : List (String × V)) (k : String) (hk : k ∉ updates.map (·.1)) :
    lookupKey (updates.foldl (fun acc kv => setKey acc kv.1 kv.2) st) k = lookupKey st k := by
  induction updates generalizing st with
  | nil => rfl
  | cons kv rest ih =>
      simp only [List.map_cons, List.mem_cons] at hk
      push_neg at hk
      simp only [List.foldl_cons]
      rw [ih _ hk.2, lookupKey_setKey_other _ _ _ _ hk.1]

/-- C1: `setState(key, value)` captures the old value before assignment,
assigns the new value at `key` (leaving every other key and the registries
untouched), and the invocation trace is exactly: every middleware in
registration order with `{key, oldValue, newValue, state}` (the
post-assignment state), then every subscriber of `key` in registration
order with `(newValue, oldValue)`, then every wildcard subscriber with the
full state and the key. -/
theorem setState_effect_order {V : Type} (s : Store V) (key : String) (value : V) :
    lookupKey (setState s key value).1.state key = some value ∧
    (∀ k, k ≠ key → lookupKey (setState s key value).1.state k = lookupKey s.state k) ∧
    (setState s key value).1.listeners = s.listeners ∧
    (setState s key value).1.middlewares = s.middlewares ∧
    (setState s key value).2 =
      (s.middlewares.map (fun m =>
          Event.middlewareCall m key (lookupKey s.state key) value (setKey s.state key value)))
      ++ ((listenersFor s key).map (fun cb =>
          Event.keySubCall cb value (lookupKey s.state key)))
      ++ ((listenersFor s "*").map (fun cb =>
          Event.wildcardCallKey cb (setKey s.state key value) key)) := by
  refine ⟨lookupKey_setKey_self _ _ _, fun k hk => lookupKey_setKey_other _ _ _ _ hk,
    rfl, rfl, rfl⟩

/-- Closed instance of `setState_effect_order` on a concrete store. -/
theorem setState_effect_order_witness :
    ("a" : String) ≠ "k" ∧
    lookupKey (setState (⟨[("k", (0:Int)), ("a", 9)], [("k", [4]), ("*", [5])], [3]⟩ : Store Int)
        "k" 7).1.state "k" = some 7 ∧
    lookupKey (setState (⟨[("k", (0:Int)), ("a", 9)], [("k", [4]), ("*", [5])], [3]⟩ : Store Int)
        "k" 7).1.state "a" = some 9 ∧
    (setState (⟨[("k", (0:Int)), ("a", 9)], [("k", [4]), ("*", [5])], [3]⟩ : Store Int) "k" 7).2 =
      [Event.middlewareCall 3 "k" (some 0) 7 [("k", 7), ("a", 9)],
       Event.keySubCall 4 7 (some 0),
       Event.wildcardCallKey 5 [("k", 7), ("a", 9)] "k"] := by
  have h := setState_effect_order (⟨[("k", (0:Int)), ("a", 9)], [("k", [4]), ("*", [5])], [3]⟩ :
    Store Int) "k" 7
  refine ⟨by decide, h.1, ?_, by rw [h.2.2.2.2]; rfl⟩
  rw [h.2.1 "a" (by decide)]
  rfl

/-- C3: `batchUpdate(updates)` assigns every key/value pair (for an entry
list with unique keys, each updated key reads back its new value), emits no
middleware invocation and no per-key subscriber invocation at all, and
invokes each wildcard subscriber exactly as often as it is registered —
once under the `Set` registry invariant — with the updated full state and
the list of changed keys. -/
theorem batchUpdate_wildcard_only {V : Type} (s : Store V) (updates : List (String × V))
    (hnodup : (updates.map (·.1)).Nodup) :
    (∀ kv ∈ updates, lookupKey (batchUpdate s updates).1.state kv.1 = some kv.2) ∧
    ((batchUpdate s updates).2.countP (isMiddlewareEvent ·) = 0) ∧
    ((batchUpdate s updates).2.countP (isKeySubEvent ·) = 0) ∧
    (∀ cb, (batchUpdate s updates).2.countP (isWildcardCallOf cb ·) =
      (listenersFor s "*").count cb) ∧
    (batchUpdate s updates).2 = (listenersFor s "*").map (fun cb =>
      Event.wildcardCallKeys cb
        (updates.foldl (fun st kv => setKey st kv.1 kv.2) s.state)
        (updates.map (·.1))) := by
  refine ⟨?_, ?_, ?_, ?_, rfl⟩
  · intro kv hmem
    induction updates generalizing s with
    | nil => cases hmem
    | cons hd rest ih =>
        simp only [List.map_cons, List.nodup_cons] at hnodup
        rcases List.mem_cons.mp hmem with heq | hrest
        · subst heq
          show lookupKey (rest.foldl (fun acc kv => setKey acc kv.1 kv.2)
            (setKey s.state kv.1 kv.2)) kv.1 = some kv.2
          rw [lookupKey_foldl_setKey_notmem _ _ _ hnodup.1, lookupKey_setKey_self]
        · have := ih (s := { s with state := setKey s.state hd.1 hd.2 }) hnodup.2 hrest
          exact this
  · simp only [batchUpdate, List.countP_map]
    apply List.countP_eq_zero.mpr
    intro c _
    simp [Function.comp, isMiddlewareEvent]
  · simp only [batchUpdate, List.countP_map]
    apply List.countP_eq_zero.mpr
    intro c _
    simp [Function.comp, isKeySubEvent]
  · intro cb
    simp only [batchUpdate, List.countP_map, List.count]
    congr 1

/-- Closed instance of `batchUpdate_wildcard_only`: one wildcard subscriber
fires exactly once, a per-key subscriber on an updated key fires zero
times. -/
theorem batchUpdate_wildcard_only_witness :
    ((["a", "b"] : List String).Nodup) ∧
    lookupKey (batchUpdate (⟨[("a", (0:Int))], [("a", [4]), ("*", [5])], [3]⟩ : Store Int)
        [("a", 1), ("b", 2)]).1.state "a" = some 1 ∧
    ((batchUpdate (⟨[("a", (0:Int))], [("a", [4]), ("*", [5])], [3]⟩ : Store Int)
        [("a", 1), ("b", 2)]).2.countP (isKeySubEvent ·) = 0) ∧
    ((batchUpdate (⟨[("a", (0:Int))], [("a", [4]), ("*", [5])], [3]⟩ : Store Int)
        [("a", 1), ("b", 2)]).2.countP (isWildcardCallOf 5 ·) = 1) := by
  have h := batchUpdate_wildcard_only
    (⟨[("a", (0:Int))], [("a", [4]), ("*", [5])], [3]⟩ : Store Int)
    [("a", 1), ("b", 2)] (by decide)
  refine ⟨by decide, h.1 ("a", 1) (by decide), h.2.2.1, ?_⟩
  · rw [h.2.2.2.1 5]
    decide

/-- C4 counterexample: the `_listeners` registry is a `Map` of `Set`s, and
`Set.add` deduplicates, so subscribing the same `(key, callback)` pair twice
yields one registration, not two.  Disposing once removes the callback
entirely: the subsequent `setState` on that key invokes it zero times, where
the claim requires one invocation for the remaining registration. -/
theorem subscribe_duplicate_not_independent_cex :
    unsubscribe (subscribe (subscribe (⟨[("k", (0:Int))], [], []⟩ : Store Int) "k" 7) "k" 7)
        "k" 7 = some (⟨[("k", (0:Int))], [("k", [])], []⟩ : Store Int) ∧
    ((setState (⟨[("k", (0:Int))], [("k", ([] : List Nat))], []⟩ : Store Int) "k" 5).2.countP
        (isKeySubOf 7 ·)) = 0 ∧ (0 : Nat) ≠ 1 := by
  refine ⟨rfl, rfl, by decide⟩

/-- C4 amended: subscribing an already-registered `(key, callback)` pair is
a no-op (`Set` deduplication) — the store after the second `subscribe`
equals the store after the first — and the two disposers both remove that
single registration: after running one of them, `setState` on the key no
longer invokes the callback at all. -/
theorem lookupKey_self_setKey_id {V : Type} (l : List (String × V)) (key : String) (v : V)
    (h : lookupKey l key = some v) : setKey l key v = l := by
  induction l with
  | nil => simp [lookupKey] at h
  | cons kv rest ih =>
      obtain ⟨k, x⟩ := kv
      by_cases hk : k = key
      · subst hk
        have hx : x = v := by simpa [lookupKey] using h
        subst hx
        simp [setKey]
      · have h' : lookupKey rest key = some v := by simpa [lookupKey, hk] using h
        simp [setKey, hk, ih h']

theorem subscribe_of_mem {V : Type} (s : Store V) (key : String) (cb : Nat)
    (hmem : cb ∈ listenersFor s key) : subscribe s key cb = s := by
  cases hlook : lookupKey s.listeners key with
  | none =>
      exfalso
      unfold listenersFor at hmem
      rw [hlook] at hmem
      simp at hmem
  | some l =>
      have hmem' : cb ∈ l := by
        unfold listenersFor at hmem
        rwa [hlook, Option.getD_some] at hmem
      have hcont : l.contains cb = true := List.elem_eq_true_of_mem hmem'
      simp only [subscribe, hlook, Option.getD_some, hcont, if_true]
      rw [lookupKey_self_setKey_id _ _ _ hlook]

theorem listenersFor_subscribe_self {V : Type} (s : Store V) (key : String) (cb : Nat) :
    listenersFor (subscribe s key cb) key =
      (if (listenersFor s key).contains cb then listenersFor s key
       else listenersFor s key ++ [cb]) := by
  simp only [subscribe, listenersFor]
  rw [lookupKey_setKey_self, Option.getD_some]

theorem lookupKey_listeners_subscribe {V : Type} (s : Store V) (key : String) (cb : Nat) :
    lookupKey (subscribe s key cb).listeners key =
      some (listenersFor (subscribe s key cb) key) := by
  simp only [subscribe, listenersFor]
  rw [lookupKey_setKey_self, Option.getD_some]

theorem subscribe_duplicate_dedupe {V : Type} (s : Store V) (key : String) (cb : Nat)
    (hnodup : (listenersFor s key).Nodup) :
    subscribe (subscribe s key cb) key cb = subscribe s key cb ∧
    (∀ s' value, unsubscribe (subscribe (subscribe s key cb) key cb) key cb = some s' →
      ((setState s' key value).2.countP (isKeySubOf cb ·)) = 0) := by
  have hL := listenersFor_subscribe_self s key cb
  have hmem : cb ∈ listenersFor (subscribe s key cb) key := by
    rw [hL]
    by_cases h : (listenersFor s key).contains cb
    · simp only [h, if_true]
      exact List.mem_of_elem_eq_true h
    · simp only [h, if_false]
      exact List.mem_append_right _ (List.mem_singleton.mpr rfl)
  have hLnodup : (listenersFor (subscribe s key cb) key).Nodup := by
    rw [hL]
    by_cases h : (listenersFor s key).contains cb
    · rw [if_pos h]
      exact hnodup
    · rw [if_neg h]
      refine List.Nodup.append hnodup (List.nodup_singleton cb) ?_
      intro x hx hx1
      rw [List.mem_singleton] at hx1
      subst hx1
      exact absurd (List.elem_eq_true_of_mem hx) (by simpa using h)
  have hidem : subscribe (subscribe s key cb) key cb = subscribe s key cb :=
    subscribe_of_mem _ _ _ hmem
  refine ⟨hidem, ?_⟩
  intro s' value hunsub
  rw [hidem] at hunsub
  have hlook1 := lookupKey_listeners_subscribe s key cb
  have hunfold : unsubscribe (subscribe s key cb) key cb =
      some (Store.mk (subscribe s key cb).state
        (setKey (subscribe s key cb).listeners key
          ((listenersFor (subscribe s key cb) key).erase cb))
        (subscribe s key cb).middlewares) := by
    simp only [unsubscribe, hlook1]
  rw [hunfold] at hunsub
  have hs' := (Option.some.injEq _ _).mp hunsub
  subst hs'
  have hlistErase : listenersFor (Store.mk (subscribe s key cb).state
      (setKey (subscribe s key cb).listeners key
        ((listenersFor (subscribe s key cb) key).erase cb))
      (subscribe s key cb).middlewares) key =
      (listenersFor (subscribe s key cb) key).erase cb := by
    show (lookupKey (setKey (subscribe s key cb).listeners key
      ((listenersFor (subscribe s key cb) key).erase cb)) key).getD [] = _
    rw [lookupKey_setKey_self, Option.getD_some]
  have hnotmem : cb ∉ (listenersFor (subscribe s key cb) key).erase cb :=
    hLnodup.not_mem_erase
  simp only [setState, List.countP_append, List.countP_map]
  rw [hlistErase]
  have h1 : ∀ (ms : List Nat) (k : String) (ov : Option V) (st : List (String × V)),
      ms.countP ((isKeySubOf cb ·) ∘ fun m => Event.middlewareCall m k ov value st) = 0 := by
    intro ms k ov st
    apply List.countP_eq_zero.mpr
    intro c _
    simp [Function.comp, isKeySubOf]
  have h2 : ∀ (ov : Option V),
      ((listenersFor (subscribe s key cb) key).erase cb).countP
        ((isKeySubOf cb ·) ∘ fun c => Event.keySubCall c value ov) = 0 := by
    intro ov
    apply List.countP_eq_zero.mpr
    intro c hc
    simp only [Function.comp, isKeySubOf]
    intro hcontra
    have hceq : c = cb := by simpa using hcontra
    rw [hceq] at hc
    exact absurd hc hnotmem
  have h3 : ∀ (ws : List Nat) (st : List (String × V)) (k : String),
      ws.countP ((isKeySubOf cb ·) ∘ fun c => Event.wildcardCallKey c st k) = 0 := by
    intro ws st k
    apply List.countP_eq_zero.mpr
    intro c _
    simp [Function.comp, isKeySubOf]
  rw [h1, h2, h3]

/-- Closed instance of `subscribe_duplicate_dedupe` on a concrete store. -/
theorem subscribe_duplicate_dedupe_witness :
    (listenersFor (⟨[("k", (0:Int))], [], []⟩ : Store Int) "k").Nodup ∧
    subscribe (subscribe (⟨[("k", (0:Int))], [], []⟩ : Store Int) "k" 7) "k" 7 =
      subscribe (⟨[("k", (0:Int))], [], []⟩ : Store Int) "k" 7 ∧
    ((setState (⟨[("k", (0:Int))], [("k", ([] : List Nat))], []⟩ : Store Int) "k" 5).2.countP
      (isKeySubOf 7 ·)) = 0 :=
  ⟨by decide,
   (subscribe_duplicate_dedupe (⟨[("k", (0:Int))], [], []⟩ : Store Int) "k" 7 (by decide)).1,
   (subscribe_duplicate_dedupe (⟨[("k", (0:Int))], [], []⟩ : Store Int) "k" 7 (by decide)).2
     (⟨[("k", (0:Int))], [("k", ([] : List Nat))], []⟩ : Store Int) 5 rfl⟩

/-- C10: the disposer returned by `subscribe` is idempotent.  Whenever the
listener `Map` has an entry for `key` (which is the case from the moment
`subscribe` ran, because entries are never removed) and that entry is
duplicate-free (the `Set` invariant), invoking the disposer succeeds — no
error — and invoking it again succeeds and returns the registry exactly as
it was after the first invocation. -/
theorem unsubscribe_idempotent {V : Type} (s : Store V) (key : String) (cb : Nat)
    (hentry : (lookupKey s.listeners key).isSome)
    (hnodup : (listenersFor s key).Nodup) :
    ∃ s', unsubscribe s key cb = some s' ∧ unsubscribe s' key cb = some s' := by
  obtain ⟨l, hl⟩ := Option.isSome_iff_exists.mp hentry
  have hnodupl : l.Nodup := by
    unfold listenersFor at hnodup
    rwa [hl, Option.getD_some] at hnodup
  refine ⟨Store.mk s.state (setKey s.listeners key (l.erase cb)) s.middlewares, ?_, ?_⟩
  · simp only [unsubscribe, hl]
  · have hl2 : lookupKey (setKey s.listeners key (l.erase cb)) key = some (l.erase cb) :=
      lookupKey_setKey_self _ _ _
    simp only [unsubscribe, hl2]
    rw [List.erase_of_not_mem hnodupl.not_mem_erase, setKey_setKey_same]

/-- Closed instance of `unsubscribe_idempotent` on a concrete store. -/
theorem unsubscribe_idempotent_witness :
    (lookupKey ([("k", [7, 9])] : List (String × List Nat)) "k").isSome = true ∧
    ∃ s', unsubscribe (⟨[("k", (0:Int))], [("k", [7, 9])], []⟩ : Store Int) "k" 7 = some s' ∧
      unsubscribe s' "k" 7 = some s' :=
  ⟨by decide,
   unsubscribe_idempotent (⟨[("k", (0:Int))], [("k", [7, 9])], []⟩ : Store Int) "k" 7
     (by decide) (by decide)⟩

/-! ## Deep-copy snapshots — `Store.getState` (C2)

`getState()` is `JSON.parse(JSON.stringify(this._state))`.  To state
reference independence — the property the claim is about — the JSON value
graph is made explicit: nodes live in a heap (a list of nodes indexed by
address), `JSON.stringify` reads the tree rooted at an address into a pure
value, and `JSON.parse` builds fresh nodes for the whole value, appended at
the end of the heap.  Externally mutating a reachable object is `List.set`
at its address. -/

/-- Primitive JSON value. -/
inductive JLeaf where
  | null
  | bool (b : Bool)
  | num (n : Int)
  | str (s : String)
  deriving DecidableEq

mutual
/-- Pure JSON tree (the `JSON.stringify`/`JSON.parse` wire content). -/
inductive JVal where
  | leaf (p : JLeaf)
  | arr (elems : JArr)
  | obj (fields : JObj)
  deriving DecidableEq
/-- Array contents of a pure JSON tree. -/
inductive JArr where
  | nil
  | cons (v : JVal) (rest : JArr)
  deriving DecidableEq
/-- Object contents of a pure JSON tree. -/
inductive JObj where
  | nil
  | cons (k : String) (v : JVal) (rest : JObj)
  deriving DecidableEq
end

/-- One heap node: a leaf, or an array/object of child addresses. -/
inductive HNode where
  | leaf (p : JLeaf)
  | arrN (elems : List Nat)
  | objN (fields : List (String × Nat))
  deriving DecidableEq

/-- The mutable object graph: node `a` is `h[a]?`. -/
abbrev Heap := List HNode

/-- Combine a decoded head and tail of an array, failing if either failed. -/
def consArrOpt : Option JVal → Option JArr → Option JArr
  | some v, some vs => some (JArr.cons v vs)
  | _, _ => none

/-- Combine a decoded field and the remaining fields of an object. -/
def consObjOpt (k : String) : Option JVal → Option JObj → Option JObj
  | some v, some vs => some (JObj.cons k v vs)
  | _, _ => none

/-- Read (`JSON.stringify`) the tree rooted at address `a`, with fuel
bounding the depth; `none` for a dangling address or exhausted fuel. -/
def decodeF : Nat → Heap → Nat → Option JVal
  | 0, _, _ => none
  | fuel+1, h, a =>
      match h[a]? with
      | some (HNode.leaf p) => some (JVal.leaf p)
      | some (HNode.arrN es) =>
          (es.foldr (fun e acc => consArrOpt (decodeF fuel h e) acc) (some JArr.nil)).map
            JVal.arr
      | some (HNode.objN fs) =>
          (fs.foldr (fun kv acc => consObjOpt kv.1 (decodeF fuel h kv.2) acc)
            (some JObj.nil)).map JVal.obj
      | none => none

/-- The array-contents part of `decodeF`. -/
def decodeArr (fuel : Nat) (h : Heap) (es : List Nat) : Option JArr :=
  es.foldr (fun e acc => consArrOpt (decodeF fuel h e) acc) (some JArr.nil)

/-- The object-contents part of `decodeF`. -/
def decodeObj (fuel : Nat) (h : Heap) (fs : List (String × Nat)) : Option JObj :=
  fs.foldr (fun kv acc => consObjOpt kv.1 (decodeF fuel h kv.2) acc) (some JObj.nil)

mutual
/-- Allocate (`JSON.parse`) a pure value as fresh nodes appended to the
heap, children first; returns the extended heap and the root address. -/
def storeVal (h : Heap) : JVal → Heap × Nat
  | .leaf p => (h ++ [HNode.leaf p], h.length)
  | .arr elems =>
      let r := storeArr h elems
      (r.1 ++ [HNode.arrN r.2], r.1.length)
  | .obj fields =>
      let r := storeObj h fields
      (r.1 ++ [HNode.objN r.2], r.1.length)
/-- Allocate every element of an array, left to right. -/
def storeArr (h : Heap) : JArr → Heap × List Nat
  | .nil => (h, [])
  | .cons v rest =>
      let rv := storeVal h v
      let rr := storeArr rv.1 rest
      (rr.1, rv.2 :: rr.2)
/-- Allocate every field value of an object, left to right. -/
def storeObj (h : Heap) : JObj → Heap × List (String × Nat)
  | .nil => (h, [])
  | .cons k v rest =>
      let rv := storeVal h v
      let rr := storeObj rv.1 rest
      (rr.1, (k, rv.2) :: rr.2)
end

/-- `Store.getState()`: `JSON.parse(JSON.stringify(this._state))` over the
state tree rooted at `root` — serialize the tree to a pure value, then
allocate a completely fresh copy of it. -/
def getState (fuel : Nat) (h : Heap) (root : Nat) : Option (Heap × Nat) :=
  (decodeF fuel h root).map (fun v => storeVal h v)

theorem decodeF_arr (fuel : Nat) (h : Heap) (a : Nat) (es : List Nat)
    (hget : h[a]? = some (HNode.arrN es)) :
    decodeF (fuel+1) h a = (decodeArr fuel h es).map JVal.arr := by
  simp [decodeF, hget, decodeArr]

theorem decodeF_obj (fuel : Nat) (h : Heap) (a : Nat) (fs : List (String × Nat))
    (hget : h[a]? = some (HNode.objN fs)) :
    decodeF (fuel+1) h a = (decodeObj fuel h fs).map JVal.obj := by
  simp [decodeF, hget, decodeObj]

theorem decodeF_leaf (fuel : Nat) (h : Heap) (a : Nat) (p : JLeaf)
    (hget : h[a]? = some (HNode.leaf p)) :
    decodeF (fuel+1) h a = some (JVal.leaf p) := by
  simp [decodeF, hget]

theorem decodeArr_cons (fuel : Nat) (h : Heap) (e : Nat) (es : List Nat) :
    decodeArr fuel h (e :: es) = consArrOpt (decodeF fuel h e) (decodeArr fuel h es) := rfl

theorem decodeObj_cons (fuel : Nat) (h : Heap) (kv : String × Nat) (fs : List (String × Nat)) :
    decodeObj fuel h (kv :: fs) = consObjOpt kv.1 (decodeF fuel h kv.2) (decodeObj fuel h fs) :=
  rfl

theorem decodeArr_mono_succ_of (fuel : Nat) (h : Heap)
    (ih : ∀ a v, decodeF fuel h a = some v → decodeF (fuel+1) h a = some v) :
    ∀ (es : List Nat) (vs : JArr), decodeArr fuel h es = some vs →
      decodeArr (fuel+1) h es = some vs := by
  intro es
  induction es with
  | nil =>
      intro vs hvs
      simpa [decodeArr] using hvs
  | cons e rest ihr =>
      intro vs hvs
      rw [decodeArr_cons] at hvs ⊢
      cases hv1 : decodeF fuel h e with
      | none => rw [hv1] at hvs; simp [consArrOpt] at hvs
      | some v1 =>
          cases hv2 : decodeArr fuel h rest with
          | none => rw [hv1, hv2] at hvs; simp [consArrOpt] at hvs
          | some vs2 =>
              rw [hv1, hv2] at hvs
              rw [ih e v1 hv1, ihr vs2 hv2]
              exact hvs

theorem decodeObj_mono_succ_of (fuel : Nat) (h : Heap)
    (ih : ∀ a v, decodeF fuel h a = some v → decodeF (fuel+1) h a = some v) :
    ∀ (fs : List (String × Nat)) (vs : JObj), decodeObj fuel h fs = some vs →
      decodeObj (fuel+1) h fs = some vs := by
  intro fs
  induction fs with
  | nil =>
      intro vs hvs
      simpa [decodeObj] using hvs
  | cons kv rest ihr =>
      intro vs hvs
      rw [decodeObj_cons] at hvs ⊢
      cases hv1 : decodeF fuel h kv.2 with
      | none => rw [hv1] at hvs; simp [consObjOpt] at hvs
      | some v1 =>
          cases hv2 : decodeObj fuel h rest with
          | none => rw [hv1, hv2] at hvs; simp [consObjOpt] at hvs
          | some vs2 =>
              rw [hv1, hv2] at hvs
              rw [ih kv.2 v1 hv1, ihr vs2 hv2]
              exact hvs

theorem decodeF_mono_succ : ∀ (fuel : Nat) (h : Heap) (a : Nat) (v : JVal),
    decodeF fuel h a = some v → decodeF (fuel+1) h a = some v := by
  intro fuel
  induction fuel with
  | zero =>
      intro h a v hv
      simp [decodeF] at hv
  | succ fuel ih =>
      intro h a v hv
      cases hget : h[a]? with
      | none =>
          rw [show decodeF (fuel+1+1) h a = none by simp [decodeF, hget]]
          rw [show decodeF (fuel+1) h a = none by simp [decodeF, hget]] at hv
          exact hv
      | some node =>
          cases node with
          | leaf p =>
              rw [decodeF_leaf _ _ _ _ hget] at hv
              rw [decodeF_leaf _ _ _ _ hget]
              exact hv
          | arrN es =>
              rw [decodeF_arr _ _ _ _ hget] at hv
              rw [decodeF_arr _ _ _ _ hget]
              cases hvs : decodeArr fuel h es with
              | none => rw [hvs] at hv; cases hv
              | some vs =>
                  rw [hvs] at hv
                  rw [decodeArr_mono_succ_of fuel h (ih h) es vs hvs]
                  exact hv
          | objN fs =>
              rw [decodeF_obj _ _ _ _ hget] at hv
              rw [decodeF_obj _ _ _ _ hget]
              cases hvs : decodeObj fuel h fs with
              | none => rw [hvs] at hv; cases hv
              | some vs =>
                  rw [hvs] at hv
                  rw [decodeObj_mono_succ_of fuel h (ih h) fs vs hvs]
                  exact hv

theorem decodeF_mono {fuel fuel' : Nat} (h : Heap) (a : Nat) (v : JVal)
    (hle : fuel ≤ fuel') (hv : decodeF fuel h a = some v) : decodeF fuel' h a = some v := by
  induction fuel', hle using Nat.le_induction with
  | base => exact hv
  | succ n hn ihn => exact decodeF_mono_succ n h a v ihn

theorem decodeArr_agree_of (fuel : Nat) (h h₂ : Heap)
    (ih : ∀ a v, decodeF fuel h a = some v → decodeF fuel h₂ a = some v) :
    ∀ (es : List Nat) (vs : JArr), decodeArr fuel h es = some vs →
      decodeArr fuel h₂ es = some vs := by
  intro es
  induction es with
  | nil =>
      intro vs hvs
      simpa [decodeArr] using hvs
  | cons e rest ihr =>
      intro vs hvs
      rw [decodeArr_cons] at hvs ⊢
      cases hv1 : decodeF fuel h e with
      | none => rw [hv1] at hvs; simp [consArrOpt] at hvs
      | some v1 =>
          cases hv2 : decodeArr fuel h rest with
          | none => rw [hv1, hv2] at hvs; simp [consArrOpt] at hvs
          | some vs2 =>
              rw [hv1, hv2] at hvs
              rw [ih e v1 hv1, ihr vs2 hv2]
              exact hvs

theorem decodeObj_agree_of (fuel : Nat) (h h₂ : Heap)
    (ih : ∀ a v, decodeF fuel h a = some v → decodeF fuel h₂ a = some v) :
    ∀ (fs : List (String × Nat)) (vs : JObj), decodeObj fuel h fs = some vs →
      decodeObj fuel h₂ fs = some vs := by
  intro fs
  induction fs with
  | nil =>
      intro vs hvs
      simpa [decodeObj] using hvs
  | cons kv rest ihr =>
      intro vs hvs
      rw [decodeObj_cons] at hvs ⊢
      cases hv1 : decodeF fuel h kv.2 with
      | none => rw [hv1] at hvs; simp [consObjOpt] at hvs
      | some v1 =>
          cases hv2 : decodeObj fuel h rest with
          | none => rw [hv1, hv2] at hvs; simp [consObjOpt] at hvs
          | some vs2 =>
              rw [hv1, hv2] at hvs
              rw [ih kv.2 v1 hv1, ihr vs2 hv2]
              exact hvs

theorem decodeF_agree : ∀ (fuel : Nat) (h h₂ : Heap) (a : Nat) (v : JVal),
    (∀ c, c < h.length → h₂[c]? = h[c]?) →
    decodeF fuel h a = some v → decodeF fuel h₂ a = some v := by
  intro fuel
  induction fuel with
  | zero =>
      intro h h₂ a v _ hv
      simp [decodeF] at hv
  | succ fuel ih =>
      intro h h₂ a v hagree hv
      cases hget : h[a]? with
      | none =>
          rw [show decodeF (fuel+1) h a = none by simp [decodeF, hget]] at hv
          exact absurd hv (by simp)
      | some node =>
          have ha : a < h.length := by
            obtain ⟨hlt, -⟩ := List.getElem?_eq_some.mp hget
            exact hlt
          have hget2 : h₂[a]? = some node := by rw [hagree a ha, hget]
          cases node with
          | leaf p =>
              rw [decodeF_leaf _ _ _ _ hget] at hv
              rw [decodeF_leaf _ _ _ _ hget2]
              exact hv
          | arrN es =>
              rw [decodeF_arr _ _ _ _ hget] at hv
              rw [decodeF_arr _ _ _ _ hget2]
              cases hvs : decodeArr fuel h es with
              | none => rw [hvs] at hv; cases hv
              | some vs =>
                  rw [hvs] at hv
                  rw [decodeArr_agree_of fuel h h₂ (fun b w => ih h h₂ b w hagree) es vs hvs]
                  exact hv
          | objN fs =>
              rw [decodeF_obj _ _ _ _ hget] at hv
              rw [decodeF_obj _ _ _ _ hget2]
              cases hvs : decodeObj fuel h fs with
              | none => rw [hvs] at hv; cases hv
              | some vs =>
                  rw [hvs] at hv
                  rw [decodeObj_agree_of fuel h h₂ (fun b w => ih h h₂ b w hagree) fs vs hvs]
                  exact hv

theorem decodeF_append (fuel : Nat) (h ext : Heap) (a : Nat) (v : JVal)
    (hv : decodeF fuel h a = some v) : decodeF fuel (h ++ ext) a = some v :=
  decodeF_agree fuel h (h ++ ext) a v (fun _ hc => List.getElem?_append_left hc) hv

theorem decodeF_set_fresh (fuel : Nat) (h ext : Heap) (a : Nat) (v : JVal) (b : Nat)
    (n : HNode) (hb : h.length ≤ b) (hv : decodeF fuel h a = some v) :
    decodeF fuel ((h ++ ext).set b n) a = some v := by
  apply decodeF_agree fuel h _ a v _ hv
  intro c hc
  rw [List.getElem?_set_ne (by omega : b ≠ c), List.getElem?_append_left hc]

mutual
theorem storeVal_ext : ∀ (v : JVal) (h : Heap), ∃ ext, (storeVal h v).1 = h ++ ext
  | .leaf p, h => ⟨[HNode.leaf p], by simp [storeVal]⟩
  | .arr es, h => by
      obtain ⟨ext, hex⟩ := storeArr_ext es h
      refine ⟨ext ++ [HNode.arrN (storeArr h es).2], ?_⟩
      simp [storeVal, hex]
  | .obj fs, h => by
      obtain ⟨ext, hex⟩ := storeObj_ext fs h
      refine ⟨ext ++ [HNode.objN (storeObj h fs).2], ?_⟩
      simp [storeVal, hex]
theorem storeArr_ext : ∀ (es : JArr) (h : Heap), ∃ ext, (storeArr h es).1 = h ++ ext
  | .nil, h => ⟨[], by simp [storeArr]⟩
  | .cons v rest, h => by
      obtain ⟨e1, h1⟩ := storeVal_ext v h
      obtain ⟨e2, h2⟩ := storeArr_ext rest (storeVal h v).1
      refine ⟨e1 ++ e2, ?_⟩
      have hres : (storeArr h (JArr.cons v rest)).1 = (storeArr (storeVal h v).1 rest).1 := by
        simp [storeArr]
      rw [hres, h2, h1, List.append_assoc]
theorem storeObj_ext : ∀ (fs : JObj) (h : Heap), ∃ ext, (storeObj h fs).1 = h ++ ext
  | .nil, h => ⟨[], by simp [storeObj]⟩
  | .cons k v rest, h => by
      obtain ⟨e1, h1⟩ := storeVal_ext v h
      obtain ⟨e2, h2⟩ := storeObj_ext rest (storeVal h v).1
      refine ⟨e1 ++ e2, ?_⟩
      have hres : (storeObj h (JObj.cons k v rest)).1 = (storeObj (storeVal h v).1 rest).1 := by
        simp [storeObj]
      rw [hres, h2, h1, List.append_assoc]
end

theorem storeVal_length_le (v : JVal) (h : Heap) : h.length ≤ (storeVal h v).1.length := by
  obtain ⟨ext, hex⟩ := storeVal_ext v h
  simp [hex]

theorem storeArr_length_le (es : JArr) (h : Heap) : h.length ≤ (storeArr h es).1.length := by
  obtain ⟨ext, hex⟩ := storeArr_ext es h
  simp [hex]

theorem storeObj_length_le (fs : JObj) (h : Heap) : h.length ≤ (storeObj h fs).1.length := by
  obtain ⟨ext, hex⟩ := storeObj_ext fs h
  simp [hex]

mutual
theorem storeVal_addr : ∀ (v : JVal) (h : Heap),
    h.length ≤ (storeVal h v).2 ∧ (storeVal h v).2 < (storeVal h v).1.length
  | .leaf p, h => by simp [storeVal]
  | .arr es, h => by
      have hle := storeArr_length_le es h
      constructor
      · simpa [storeVal] using hle
      · simp [storeVal]
  | .obj fs, h => by
      have hle := storeObj_length_le fs h
      constructor
      · simpa [storeVal] using hle
      · simp [storeVal]
theorem storeArr_addr : ∀ (es : JArr) (h : Heap),
    ∀ x ∈ (storeArr h es).2, h.length ≤ x ∧ x < (storeArr h es).1.length
  | .nil, h => by
      intro x hx
      simp [storeArr] at hx
  | .cons v rest, h => by
      intro x hx
      have hxmem : x = (storeVal h v).2 ∨ x ∈ (storeArr (storeVal h v).1 rest).2 := by
        simpa [storeArr] using hx
      have hlen1 := storeVal_length_le v h
      have hres1 : (storeArr h (JArr.cons v rest)).1 = (storeArr (storeVal h v).1 rest).1 := by
        simp [storeArr]
      rw [hres1]
      rcases hxmem with heq | hmem
      · have hv := storeVal_addr v h
        have hlen2 := storeArr_length_le rest (storeVal h v).1
        subst heq
        exact ⟨hv.1, lt_of_lt_of_le hv.2 hlen2⟩
      · have hr := storeArr_addr rest (storeVal h v).1 x hmem
        exact ⟨le_trans hlen1 hr.1, hr.2⟩
theorem storeObj_addr : ∀ (fs : JObj) (h : Heap),
    ∀ kv ∈ (storeObj h fs).2, h.length ≤ kv.2 ∧ kv.2 < (storeObj h fs).1.length
  | .nil, h => by
      intro kv hkv
      simp [storeObj] at hkv
  | .cons k v rest, h => by
      intro kv hkv
      have hkvmem : kv = (k, (storeVal h v).2) ∨ kv ∈ (storeObj (storeVal h v).1 rest).2 := by
        simpa [storeObj] using hkv
      have hlen1 := storeVal_length_le v h
      have hres1 : (storeObj h (JObj.cons k v rest)).1 = (storeObj (storeVal h v).1 rest).1 := by
        simp [storeObj]
      rw [hres1]
      rcases hkvmem with heq | hmem
      · have hv := storeVal_addr v h
        have hlen2 := storeObj_length_le rest (storeVal h v).1
        subst heq
        exact ⟨hv.1, lt_of_lt_of_le hv.2 hlen2⟩
      · have hr := storeObj_addr rest (storeVal h v).1 kv hmem
        exact ⟨le_trans hlen1 hr.1, hr.2⟩
end

mutual
theorem storeVal_decode : ∀ (v : JVal) (h h₂ : Heap),
    (∀ c, h.length ≤ c → c < (storeVal h v).1.length → h₂[c]? = (storeVal h v).1[c]?) →
    decodeF ((storeVal h v).2 + 1) h₂ (storeVal h v).2 = some v
  | .leaf p, h, h₂ => by
      intro hagree
      have h1 : (storeVal h (JVal.leaf p)).1 = h ++ [HNode.leaf p] := by simp [storeVal]
      have h2 : (storeVal h (JVal.leaf p)).2 = h.length := by simp [storeVal]
      have hlen : (storeVal h (JVal.leaf p)).1.length = h.length + 1 := by simp [h1]
      have hget : h₂[h.length]? = some (HNode.leaf p) := by
        have := hagree h.length (le_refl _) (by omega)
        rw [this, h1]
        exact List.getElem?_concat_length _ _
      rw [h2]
      exact decodeF_leaf _ _ _ _ hget
  | .arr es, h, h₂ => by
      intro hagree
      have h1 : (storeVal h (JVal.arr es)).1 =
          (storeArr h es).1 ++ [HNode.arrN (storeArr h es).2] := by simp [storeVal]
      have h2 : (storeVal h (JVal.arr es)).2 = (storeArr h es).1.length := by simp [storeVal]
      have hlen : (storeVal h (JVal.arr es)).1.length = (storeArr h es).1.length + 1 := by
        simp [h1]
      have hhle : h.length ≤ (storeArr h es).1.length := storeArr_length_le es h
      have hget : h₂[(storeArr h es).1.length]? = some (HNode.arrN (storeArr h es).2) := by
        have := hagree (storeArr h es).1.length hhle (by omega)
        rw [this, h1]
        exact List.getElem?_concat_length _ _
      have harr : decodeArr (storeArr h es).1.length h₂ (storeArr h es).2 = some es := by
        apply storeArr_decode es h h₂
        · intro c hc1 hc2
          rw [hagree c hc1 (by omega), h1]
          exact List.getElem?_append_left hc2
        · intro x hx
          exact (storeArr_addr es h x hx).2
      rw [h2, decodeF_arr _ _ _ _ hget, harr]
      rfl
  | .obj fs, h, h₂ => by
      intro hagree
      have h1 : (storeVal h (JVal.obj fs)).1 =
          (storeObj h fs).1 ++ [HNode.objN (storeObj h fs).2] := by simp [storeVal]
      have h2 : (storeVal h (JVal.obj fs)).2 = (storeObj h fs).1.length := by simp [storeVal]
      have hlen : (storeVal h (JVal.obj fs)).1.length = (storeObj h fs).1.length + 1 := by
        simp [h1]
      have hhle : h.length ≤ (storeObj h fs).1.length := storeObj_length_le fs h
      have hget : h₂[(storeObj h fs).1.length]? = some (HNode.objN (storeObj h fs).2) := by
        have := hagree (storeObj h fs).1.length hhle (by omega)
        rw [this, h1]
        exact List.getElem?_concat_length _ _
      have hobj : decodeObj (storeObj h fs).1.length h₂ (storeObj h fs).2 = some fs := by
        apply storeObj_decode fs h h₂
        · intro c hc1 hc2
          rw [hagree c hc1 (by omega), h1]
          exact List.getElem?_append_left hc2
        · intro kv hkv
          exact (storeObj_addr fs h kv hkv).2
      rw [h2, decodeF_obj _ _ _ _ hget, hobj]
      rfl
theorem storeArr_decode : ∀ (es : JArr) (h h₂ : Heap) (fuel : Nat),
    (∀ c, h.length ≤ c → c < (storeArr h es).1.length → h₂[c]? = (storeArr h es).1[c]?) →
    (∀ x ∈ (storeArr h es).2, x < fuel) →
    decodeArr fuel h₂ (storeArr h es).2 = some es
  | .nil, h, h₂, fuel => by
      intro _ _
      have h0 : (storeArr h JArr.nil).2 = [] := by simp [storeArr]
      rw [h0]
      simp [decodeArr]
  | .cons v rest, h, h₂, fuel => by
      intro hagree hfuel
      have hres1 : (storeArr h (JArr.cons v rest)).1 = (storeArr (storeVal h v).1 rest).1 := by
        simp [storeArr]
      have hres2 : (storeArr h (JArr.cons v rest)).2 =
          (storeVal h v).2 :: (storeArr (storeVal h v).1 rest).2 := by
        simp [storeArr]
      rw [hres1] at hagree
      rw [hres2] at hfuel
      have hle1 := storeVal_length_le v h
      have hle2 := storeArr_length_le rest (storeVal h v).1
      obtain ⟨e2, he2⟩ := storeArr_ext rest (storeVal h v).1
      have hheadlt : (storeVal h v).2 < fuel := hfuel _ (by simp)
      have hhead : decodeF ((storeVal h v).2 + 1) h₂ (storeVal h v).2 = some v := by
        apply storeVal_decode v h h₂
        intro c hc1 hc2
        rw [hagree c hc1 (by omega), he2]
        exact List.getElem?_append_left hc2
      have hheadF : decodeF fuel h₂ (storeVal h v).2 = some v :=
        decodeF_mono h₂ _ v (by omega) hhead
      have hrest : decodeArr fuel h₂ (storeArr (storeVal h v).1 rest).2 = some rest := by
        apply storeArr_decode rest (storeVal h v).1 h₂ fuel
        · intro c hc1 hc2
          exact hagree c (le_trans hle1 hc1) hc2
        · intro x hx
          exact hfuel x (by simp [hx])
      rw [hres2, decodeArr_cons, hheadF, hrest]
      rfl
theorem storeObj_decode : ∀ (fs : JObj) (h h₂ : Heap) (fuel : Nat),
    (∀ c, h.length ≤ c → c < (storeObj h fs).1.length → h₂[c]? = (storeObj h fs).1[c]?) →
    (∀ kv ∈ (storeObj h fs).2, kv.2 < fuel) →
    decodeObj fuel h₂ (storeObj h fs).2 = some fs
  | .nil, h, h₂, fuel => by
      intro _ _
      have h0 : (storeObj h JObj.nil).2 = [] := by simp [storeObj]
      rw [h0]
      simp [decodeObj]
  | .cons k v rest, h, h₂, fuel => by
      intro hagree hfuel
      have hres1 : (storeObj h (JObj.cons k v rest)).1 = (storeObj (storeVal h v).1 rest).1 := by
        simp [storeObj]
      have hres2 : (storeObj h (JObj.cons k v rest)).2 =
          (k, (storeVal h v).2) :: (storeObj (storeVal h v).1 rest).2 := by
        simp [storeObj]
      rw [hres1] at hagree
      rw [hres2] at hfuel
      have hle1 := storeVal_length_le v h
      have hle2 := storeObj_length_le rest (storeVal h v).1
      obtain ⟨e2, he2⟩ := storeObj_ext rest (storeVal h v).1
      have hheadlt : (storeVal h v).2 < fuel := by
        have := hfuel (k, (storeVal h v).2) (by simp)
        exact this
      have hhead : decodeF ((storeVal h v).2 + 1) h₂ (storeVal h v).2 = some v := by
        apply storeVal_decode v h h₂
        intro c hc1 hc2
        rw [hagree c hc1 (by omega), he2]
        exact List.getElem?_append_left hc2
      have hheadF : decodeF fuel h₂ (storeVal h v).2 = some v :=
        decodeF_mono h₂ _ v (by omega) hhead
      have hrest : decodeObj fuel h₂ (storeObj (storeVal h v).1 rest).2 = some rest := by
        apply storeObj_decode rest (storeVal h v).1 h₂ fuel
        · intro c hc1 hc2
          exact hagree c (le_trans hle1 hc1) hc2
        · intro kv hkv
          exact hfuel kv (by simp [hkv])
      rw [hres2, decodeObj_cons, hheadF, hrest]
      rfl
end

/-- C2: `getState()` produces a deep, independent snapshot.  For a state
tree rooted at `root` that serializes to the value `v`: (1) `getState`
succeeds and returns the freshly allocated copy; (2) the copy's root
decodes back to exactly `v`; (3) mutating any address at or beyond the old
heap length — which covers every node of the snapshot, all allocated
fresh — leaves the internal state's serialization unchanged, so every
subsequent `getState` still snapshots the same `v`; (4) conversely,
mutating any pre-existing address (e.g. via `setState`) never changes what
the already-returned snapshot decodes to. -/
theorem getState_deep_copy_independent (h : Heap) (root : Nat) (v : JVal) (fuel : Nat)
    (hdec : decodeF fuel h root = some v) :
    getState fuel h root = some (storeVal h v) ∧
    decodeF ((storeVal h v).2 + 1) (storeVal h v).1 (storeVal h v).2 = some v ∧
    (∀ b n, h.length ≤ b →
      decodeF fuel ((storeVal h v).1.set b n) root = some v ∧
      getState fuel ((storeVal h v).1.set b n) root =
        some (storeVal ((storeVal h v).1.set b n) v)) ∧
    (∀ b n, b < h.length →
      decodeF ((storeVal h v).2 + 1) ((storeVal h v).1.set b n) (storeVal h v).2 = some v) := by
  obtain ⟨ext, hex⟩ := storeVal_ext v h
  refine ⟨?_, ?_, ?_, ?_⟩
  · unfold getState
    rw [hdec]
    rfl
  · exact storeVal_decode v h (storeVal h v).1 (fun c _ _ => rfl)
  · intro b n hb
    have hset : decodeF fuel ((storeVal h v).1.set b n) root = some v := by
      rw [hex]
      exact decodeF_set_fresh fuel h ext root v b n hb hdec
    refine ⟨hset, ?_⟩
    unfold getState
    rw [hset]
    rfl
  · intro b n hb
    apply storeVal_decode v h ((storeVal h v).1.set b n)
    intro c hc1 _
    exact List.getElem?_set_ne (by omega : b ≠ c)

/-- A two-node state heap: address 1 holds the object `{ expenses: 5 }`. -/
def exampleHeap : Heap := [HNode.leaf (JLeaf.num 5), HNode.objN [("expenses", 0)]]

/-- The pure value serialized from `exampleHeap` at address 1. -/
def exampleStateVal : JVal :=
  JVal.obj (JObj.cons "expenses" (JVal.leaf (JLeaf.num 5)) JObj.nil)

/-- Closed instance of `getState_deep_copy_independent` on `exampleHeap`:
mutating a snapshot node (address 2, the first fresh address) leaves the
state's serialization intact, and mutating a state node (address 0) leaves
the snapshot's serialization intact. -/
theorem getState_deep_copy_independent_witness :
    decodeF 2 exampleHeap 1 = some exampleStateVal ∧
    getState 2 exampleHeap 1 = some (storeVal exampleHeap exampleStateVal) ∧
    decodeF 2 ((storeVal exampleHeap exampleStateVal).1.set 2 (HNode.leaf JLeaf.null)) 1 =
      some exampleStateVal ∧
    decodeF ((storeVal exampleHeap exampleStateVal).2 + 1)
      ((storeVal exampleHeap exampleStateVal).1.set 0 (HNode.leaf JLeaf.null))
      (storeVal exampleHeap exampleStateVal).2 = some exampleStateVal := by
  have h := getState_deep_copy_independent exampleHeap 1 exampleStateVal 2 rfl
  exact ⟨rfl, h.1, (h.2.2.1 2 (HNode.leaf JLeaf.null) (by decide)).1,
    h.2.2.2 0 (HNode.leaf JLeaf.null) (by decide)⟩

/-! ## Router — `class Router` in `js/modules/router.js`

Handlers, not-found handler, guards and after-hooks are host callbacks; as
in the store embedding they are identified by `Nat` ids and their
invocations are reified as events.  A before-guard additionally has an
observable return value (the router checks `result === false`), modelled as
a function of `(path, previousRoute)`.  `_updateNavLinks` is pure DOM
output with no router-state effect and is not modelled. -/

/-- A guard's return value as seen by the strict `result === false` test. -/
inductive GRes where
  | bool (b : Bool)
  | other
  deriving DecidableEq

/-- A registered before-guard: identity plus observable return value. -/
structure Guard where
  id : Nat
  f : String → Option String → GRes

/-- Router state: `_routes`, `_currentRoute`, `_beforeHooks`, `_afterHooks`,
`_notFoundHandler`. -/
structure Router where
  routes : List (String × Nat)
  currentRoute : Option String
  beforeHooks : List Guard
  afterHooks : List Nat
  notFoundHandler : Option Nat

/-- One observable callback invocation performed by the router. -/
inductive REvent where
  | guardRun (id : Nat) (path : String) (prev : Option String)
  | handlerRun (id : Nat) (params : List (String × String))
  | notFoundRun (id : Nat) (path : String)
  | afterRun (id : Nat) (path : String) (prev : Option String)
  deriving DecidableEq

/-- JS `String.prototype.split` with a one-character separator, over the
character list: `"".split(s)` is `[""]`, separators at the ends produce
empty segments. -/
def splitOnChar (sep : Char) : List Char → List (List Char)
  | [] => [[]]
  | c :: rest =>
      let r := splitOnChar sep rest
      if c = sep then [] :: r
      else
        match r with
        | [] => [[c]]
        | g :: gs => (c :: g) :: gs

/-- Value of a hexadecimal digit. -/
def hexVal (c : Char) : Option Nat :=
  if '0' ≤ c ∧ c ≤ '9' then some (c.toNat - '0'.toNat)
  else if 'a' ≤ c ∧ c ≤ 'f' then some (c.toNat - 'a'.toNat + 10)
  else if 'A' ≤ c ∧ c ≤ 'F' then some (c.toNat - 'A'.toNat + 10)
  else none

/-- One lexical unit of a percent-encoded string: a raw character, or the
byte of a `%XX` escape. -/
inductive Tok where
  | raw (c : Char)
  | byte (b : Nat)
  deriving DecidableEq

/-- Lex a percent-encoded string: each `%` must be followed by exactly two
hex digits (else `URIError`), everything else is kept raw. -/
def tokenize : List Char → Option (List Tok)
  | [] => some []
  | c :: rest =>
      if c = '%' then
        match rest with
        | c1 :: c2 :: rest2 =>
            match hexVal c1, hexVal c2 with
            | some h1, some h2 =>
                match tokenize rest2 with
                | some ts => some (Tok.byte (h1 * 16 + h2) :: ts)
                | none => none
            | _, _ => none
        | _ => none
      else
        match tokenize rest with
        | some ts => some (Tok.raw c :: ts)
        | none => none

/-- UTF-8 continuation byte test. -/
def isCont (b : Nat) : Bool := decide (0x80 ≤ b ∧ b ≤ 0xBF)

/-- Reassemble lexed units into characters, validating the escape bytes as
UTF-8 exactly as the ECMAScript `Decode`/`UTF8Decode` operations do: a
sequence of escape bytes must be a well-formed encoding of a Unicode scalar
value (no overlong forms, no surrogates, at most U+10FFFF), otherwise
`URIError`.  Raw characters pass through unchanged. -/
def detok : List Tok → Option (List Char)
  | [] => some []
  | Tok.raw c :: rest =>
      match detok rest with
      | some out => some (c :: out)
      | none => none
  | Tok.byte b :: rest =>
      if b < 0x80 then
        match detok rest with
        | some out => some (Char.ofNat b :: out)
        | none => none
      else if 0xC0 ≤ b ∧ b ≤ 0xDF then
        match rest with
        | Tok.byte b1 :: rest1 =>
            let cp := (b - 0xC0) * 64 + (b1 - 0x80)
            if isCont b1 ∧ 0x80 ≤ cp then
              match detok rest1 with
              | some out => some (Char.ofNat cp :: out)
              | none => none
            else none
        | _ => none
      else if 0xE0 ≤ b ∧ b ≤ 0xEF then
        match rest with
        | Tok.byte b1 :: Tok.byte b2 :: rest2 =>
            let cp := (b - 0xE0) * 4096 + (b1 - 0x80) * 64 + (b2 - 0x80)
            if isCont b1 ∧ isCont b2 ∧ 0x800 ≤ cp ∧ ¬(0xD800 ≤ cp ∧ cp ≤ 0xDFFF) then
              match detok rest2 with
              | some out => some (Char.ofNat cp :: out)
              | none => none
            else none
        | _ => none
      else if 0xF0 ≤ b ∧ b ≤ 0xF7 then
        match rest with
        | Tok.byte b1 :: Tok.byte b2 :: Tok.byte b3 :: rest3 =>
            let cp := (b - 0xF0) * 262144 + (b1 - 0x80) * 4096 + (b2 - 0x80) * 64 + (b3 - 0x80)
            if isCont b1 ∧ isCont b2 ∧ isCont b3 ∧ 0x10000 ≤ cp ∧ cp ≤ 0x10FFFF then
              match detok rest3 with
              | some out => some (Char.ofNat cp :: out)
              | none => none
            else none
        | _ => none
      else none

/-- `decodeURIComponent`: percent-escapes must be two hex digits assembling
into well-formed UTF-8, any violation raises `URIError` (`none`); other
characters pass through. -/
def decodeURIComponent (s : List Char) : Option (List Char) :=
  match tokenize s with
  | none => none
  | some ts => detok ts

/-- `Router._parseHash` for a given `window.location.hash` value: strip the
leading `#` (`slice(1)`), default to `"dashboard"` when empty, destructure
on the first `?` into path and query string, split the query on `&`, split
each pair at the first `=` — `value || ''` turns a missing value into the
empty string — percent-decode key and value, and assign into the params
object.  A `URIError` thrown by `decodeURIComponent` propagates.
`parsePair` is the body of the `forEach` over `&`-separated pairs. -/
def parsePair (params : List (String × String)) (pair : List Char) :
    Option (List (String × String)) :=
  let kv := splitOnChar '=' pair
  let key := kv.headD []
  let value := (kv[1]?).getD []
  match decodeURIComponent key with
  | none => none
  | some k =>
      match decodeURIComponent value with
      | none => none
      | some v => some (setKey params (String.mk k) (String.mk v))

def parseHash (locationHash : List Char) :
    Option (List Char × List (String × String)) :=
  let hash0 := locationHash.drop 1
  let hash := if hash0 = [] then "dashboard".data else hash0
  let parts := splitOnChar '?' hash
  let path := parts.headD []
  let queryString := (parts[1]?).getD []
  if queryString = [] then some (path, [])
  else
    ((splitOnChar '&' queryString).foldlM parsePair []).map (fun params => (path, params))

/-- Run the before-guard chain in order; stop at — and include — the first
guard whose result is `=== false`.  Returns the guard events and whether
the navigation was cancelled. -/
def runGuards (guards : List Guard) (path : String) (prev : Option String) :
    List REvent × Bool :=
  match guards with
  | [] => ([], false)
  | g :: gs =>
      if g.f path prev = GRes.bool false then ([REvent.guardRun g.id path prev], true)
      else
        let r := runGuards gs path prev
        (REvent.guardRun g.id path prev :: r.1, r.2)

/-- `Router._handleRouteChange` for a given `window.location.hash`: parse
the hash, run the before-guards (returning early on cancellation), commit
the new current route, run the matching handler — or the not-found handler,
or nothing — and finally the after-hooks.  Returns the updated router and
the callback trace; `none` if `_parseHash` threw. -/
def handleRouteChange (r : Router) (locationHash : List Char) :
    Option (Router × List REvent) :=
  match parseHash locationHash with
  | none => none
  | some (pathChars, params) =>
      let path := String.mk pathChars
      let prev := r.currentRoute
      let g := runGuards r.beforeHooks path prev
      if g.2 then some (r, g.1)
      else
        let r' := { r with currentRoute := some path }
        let hevs :=
          match lookupKey r.routes path with
          | some hid => [REvent.handlerRun hid params]
          | none =>
              match r.notFoundHandler with
              | some nf => [REvent.notFoundRun nf path]
              | none => []
        let aevs := r.afterHooks.map (fun hid => REvent.afterRun hid path prev)
        some (r', g.1 ++ hevs ++ aevs)

theorem detok_map_raw (s : List Char) : detok (s.map Tok.raw) = some s := by
  induction s with
  | nil => rfl
  | cons c rest ih =>
      have hstep : detok (Tok.raw c :: List.map Tok.raw rest) =
          match detok (List.map Tok.raw rest) with
          | some out => some (c :: out)
          | none => none := rfl
      rw [List.map_cons, hstep, ih]

theorem tokenize_no_pct (s : List Char) (h : '%' ∉ s) :
    tokenize s = some (s.map Tok.raw) := by
  induction s with
  | nil => rfl
  | cons c rest ih =>
      simp only [List.mem_cons, not_or] at h
      have hc : ¬ c = '%' := fun hh => h.1 hh.symm
      rw [tokenize.eq_def]
      simp only [hc, if_false]
      rw [ih h.2, List.map_cons]

theorem decodeURIComponent_no_pct (s : List Char) (h : '%' ∉ s) :
    decodeURIComponent s = some s := by
  simp [decodeURIComponent, tokenize_no_pct s h, detok_map_raw]

theorem splitOnChar_ne_nil (sep : Char) (l : List Char) : splitOnChar sep l ≠ [] := by
  cases l with
  | nil => simp [splitOnChar]
  | cons c rest =>
      by_cases hc : c = sep
      · simp [splitOnChar, hc]
      · simp only [splitOnChar, hc, if_false]
        cases hsp : splitOnChar sep rest with
        | nil => simp
        | cons g gs => simp

theorem splitOnChar_subset (sep : Char) (l : List Char) :
    ∀ g ∈ splitOnChar sep l, ∀ c ∈ g, c ∈ l := by
  induction l with
  | nil =>
      intro g hg c hc
      simp only [splitOnChar, List.mem_singleton] at hg
      subst hg
      cases hc
  | cons x rest ih =>
      intro g hg c hc
      by_cases hx : x = sep
      · rw [show splitOnChar sep (x :: rest) = [] :: splitOnChar sep rest by
          simp [splitOnChar, hx]] at hg
        rcases List.mem_cons.mp hg with heq | hmem
        · subst heq; cases hc
        · exact List.mem_cons_of_mem _ (ih g hmem c hc)
      · cases hsp : splitOnChar sep rest with
        | nil => exact absurd hsp (splitOnChar_ne_nil sep rest)
        | cons g0 gs =>
            rw [show splitOnChar sep (x :: rest) = (x :: g0) :: gs by
              simp [splitOnChar, hx, hsp]] at hg
            rcases List.mem_cons.mp hg with heq | hmem
            · subst heq
              rcases List.mem_cons.mp hc with hceq | hcmem
              · subst hceq; exact List.mem_cons_self _ _
              · refine List.mem_cons_of_mem _ (ih g0 ?_ c hcmem)
                rw [hsp]
                exact List.mem_cons_self _ _
            · exact List.mem_cons_of_mem _
                (ih g (by rw [hsp]; exact List.mem_cons_of_mem _ hmem) c hc)

theorem splitOnChar_no_sep (sep : Char) (l : List Char) (h : sep ∉ l) :
    splitOnChar sep l = [l] := by
  induction l with
  | nil => rfl
  | cons c rest ih =>
      simp only [List.mem_cons, not_or] at h
      have hc : ¬ c = sep := fun hh => h.1 hh.symm
      simp [splitOnChar, hc, ih h.2]

theorem parsePair_no_pct (params : List (String × String)) (pair : List Char)
    (h : '%' ∉ pair) :
    parsePair params pair = some (setKey params
      (String.mk ((splitOnChar '=' pair).headD []))
      (String.mk (((splitOnChar '=' pair)[1]?).getD []))) := by
  have hkey : '%' ∉ (splitOnChar '=' pair).headD [] := by
    intro hmem
    cases hsp : splitOnChar '=' pair with
    | nil => rw [hsp] at hmem; cases hmem
    | cons g gs =>
        rw [hsp] at hmem
        exact h (splitOnChar_subset '=' pair g
          (by rw [hsp]; exact List.mem_cons_self _ _) '%' hmem)
  have hval : '%' ∉ ((splitOnChar '=' pair)[1]?).getD [] := by
    intro hmem
    cases hsp : (splitOnChar '=' pair)[1]? with
    | none => rw [hsp] at hmem; cases hmem
    | some g =>
        rw [hsp] at hmem
        exact h (splitOnChar_subset '=' pair g (List.getElem?_mem hsp) '%' hmem)
  rw [show parsePair params pair =
      (match decodeURIComponent ((splitOnChar '=' pair).headD []) with
       | none => none
       | some k =>
           match decodeURIComponent (((splitOnChar '=' pair)[1]?).getD []) with
           | none => none
           | some v => some (setKey params (String.mk k) (String.mk v))) from rfl]
  rw [decodeURIComponent_no_pct _ hkey, decodeURIComponent_no_pct _ hval]

theorem parsePair_decodes (params : List (String × String)) (pair : List Char)
    (k v : List Char)
    (hk : decodeURIComponent ((splitOnChar '=' pair).headD []) = some k)
    (hv : decodeURIComponent (((splitOnChar '=' pair)[1]?).getD []) = some v) :
    parsePair params pair = some (setKey params (String.mk k) (String.mk v)) := by
  show (match decodeURIComponent ((splitOnChar '=' pair).headD []) with
    | none => none
    | some k =>
        match decodeURIComponent (((splitOnChar '=' pair)[1]?).getD []) with
        | none => none
        | some v => some (setKey params (String.mk k) (String.mk v))) =
    some (setKey params (String.mk k) (String.mk v))
  rw [hk, hv]

theorem foldlM_parsePair_some (pairs : List (List Char))
    (hp : ∀ pair ∈ pairs,
      (decodeURIComponent ((splitOnChar '=' pair).headD [])).isSome ∧
      (decodeURIComponent (((splitOnChar '=' pair)[1]?).getD [])).isSome) :
    ∀ params, ∃ out, pairs.foldlM parsePair params = some out := by
  induction pairs with
  | nil => intro params; exact ⟨params, rfl⟩
  | cons pair rest ih =>
      intro params
      obtain ⟨hk, hv⟩ := hp pair (List.mem_cons_self _ _)
      obtain ⟨k, hk'⟩ := Option.isSome_iff_exists.mp hk
      obtain ⟨v, hv'⟩ := Option.isSome_iff_exists.mp hv
      have h1 := parsePair_decodes params pair k v hk' hv'
      obtain ⟨out, hout⟩ := ih (fun p hp' => hp p (List.mem_cons_of_mem _ hp'))
        (setKey params (String.mk k) (String.mk v))
      refine ⟨out, ?_⟩
      rw [List.foldlM_cons, h1]
      exact hout

/-- C6 counterexample: `_parseHash` raises.  The fragment `#a?%` has the
malformed query segment `%`; `decodeURIComponent("%")` throws `URIError`,
which propagates out of `_parseHash`, contradicting "never raises an
error". -/
theorem parseHash_malformed_escape_cex :
    parseHash "#a?%".data = none ∧ (parseHash "#a?%".data).isSome = false :=
  ⟨rfl, rfl⟩

/-- Every percent-escape in the fragment's query string is well-formed:
each `&`-separated pair's key and its (possibly missing, then empty) value
decode without a `URIError`.  The query string is extracted exactly as
`_parseHash` does: strip `#`, default to `dashboard`, take what follows
the first `?`. -/
def QueryWellFormed (locationHash : List Char) : Prop :=
  ∀ pair ∈ splitOnChar '&' (((splitOnChar '?'
      (if locationHash.drop 1 = [] then "dashboard".data
       else locationHash.drop 1))[1]?).getD []),
    (decodeURIComponent ((splitOnChar '=' pair).headD [])).isSome ∧
    (decodeURIComponent (((splitOnChar '=' pair)[1]?).getD [])).isSome

/-- C6 amended: parsing a fragment never raises provided every
percent-escape in its query string is well-formed (`QueryWellFormed`,
which in particular holds whenever the fragment contains no `%`), and a
pair with a missing `=value` component is mapped to the empty string; but
a malformed percent-escape (for example a bare `%`) makes
`decodeURIComponent` throw a `URIError`, which `_parseHash` propagates. -/
theorem parseHash_tolerant_wellformed (hash : List Char) (pair k : List Char)
    (params : List (String × String))
    (hwf : QueryWellFormed hash) (hne : '=' ∉ pair)
    (hk : decodeURIComponent pair = some k) :
    (parseHash hash).isSome = true ∧
    parsePair params pair = some (setKey params (String.mk k) "") := by
  constructor
  · unfold parseHash
    by_cases hq : ((splitOnChar '?'
        (if hash.drop 1 = [] then "dashboard".data else hash.drop 1))[1]?).getD [] = []
    · rw [if_pos hq]
      rfl
    · obtain ⟨out, hout⟩ := foldlM_parsePair_some _ hwf []
      rw [if_neg hq, hout]
      rfl
  · have hsp : splitOnChar '=' pair = [pair] := splitOnChar_no_sep '=' pair hne
    have hkey : decodeURIComponent ((splitOnChar '=' pair).headD []) = some k := by
      rw [hsp]
      exact hk
    have hval : decodeURIComponent (((splitOnChar '=' pair)[1]?).getD []) =
        some ([] : List Char) := by
      rw [hsp]
      rfl
    rw [parsePair_decodes params pair k [] hkey hval]

/-- Closed instance of `parseHash_tolerant_wellformed` on a fragment that
contains a well-formed escape: `#a?k=%41&x` parses (the escape decodes to
`A`), and the pair `x` (no `=`) maps to the empty string. -/
theorem parseHash_tolerant_wellformed_witness :
    QueryWellFormed "#a?k=%41&x".data ∧ ('=' ∉ "x".data) ∧
    decodeURIComponent "x".data = some "x".data ∧
    ((parseHash "#a?k=%41&x".data).isSome = true) ∧
    parsePair [] "x".data = some [("x", "")] ∧
    parseHash "#a?k=%41&x".data = some ("a".data, [("k", "A"), ("x", "")]) := by
  have h := parseHash_tolerant_wellformed "#a?k=%41&x".data "x".data "x".data []
    (by unfold QueryWellFormed; decide) (by decide) (by decide)
  refine ⟨by unfold QueryWellFormed; decide, by decide, by decide, h.1, ?_, by decide⟩
  rw [h.2]
  rfl

theorem runGuards_cancel (guards : List Guard) (path : String) (prev : Option String)
    (hcancel : ∃ g ∈ guards, g.f path prev = GRes.bool false) :
    runGuards guards path prev =
      (((guards.takeWhile (fun g => !(g.f path prev == GRes.bool false))) ++
        ((guards.dropWhile (fun g => !(g.f path prev == GRes.bool false))).take 1)).map
          (fun g => REvent.guardRun g.id path prev), true) := by
  induction guards with
  | nil =>
      obtain ⟨g, hg, _⟩ := hcancel
      cases hg
  | cons g gs ih =>
      by_cases hgf : g.f path prev = GRes.bool false
      · have hb : (!(g.f path prev == GRes.bool false)) = false := by simp [hgf]
        simp [runGuards, hgf, List.takeWhile_cons, List.dropWhile_cons, hb]
      · have hb : (!(g.f path prev == GRes.bool false)) = true := by simp [hgf]
        have hcancel' : ∃ g' ∈ gs, g'.f path prev = GRes.bool false := by
          obtain ⟨g', hg', hfg'⟩ := hcancel
          rcases List.mem_cons.mp hg' with heq | hmem
          · subst heq
            exact absurd hfg' hgf
          · exact ⟨g', hmem, hfg'⟩
        simp [runGuards, hgf, List.takeWhile_cons, List.dropWhile_cons, hb, ih hcancel']

/-- C5: when some before-guard returns the boolean `false` for the incoming
transition, `_handleRouteChange` returns before committing anything: the
router — in particular its resolved current path — is unchanged, and the
trace consists of exactly the guard invocations up to and including the
first cancelling guard, so no later guard, no route handler, no not-found
handler and no after-hook runs. -/
theorem guard_false_cancels (r : Router) (locationHash pathChars : List Char)
    (params : List (String × String))
    (hparse : parseHash locationHash = some (pathChars, params))
    (hcancel : ∃ g ∈ r.beforeHooks,
      g.f (String.mk pathChars) r.currentRoute = GRes.bool false) :
    handleRouteChange r locationHash =
      some (r, ((r.beforeHooks.takeWhile
          (fun g => !(g.f (String.mk pathChars) r.currentRoute == GRes.bool false))) ++
        ((r.beforeHooks.dropWhile
          (fun g => !(g.f (String.mk pathChars) r.currentRoute == GRes.bool false))).take
            1)).map
        (fun g => REvent.guardRun g.id (String.mk pathChars) r.currentRoute)) := by
  have hrun := runGuards_cancel r.beforeHooks (String.mk pathChars) r.currentRoute hcancel
  simp only [handleRouteChange, hparse]
  rw [hrun]
  rfl

/-- A concrete router whose single before-guard cancels every transition. -/
def routerW : Router :=
  ⟨[("x", 10)], some "home", [⟨1, fun _ _ => GRes.bool false⟩], [2], some 3⟩

/-- Closed instance of `guard_false_cancels` on `routerW`: the transition
to `x` aborts, the router is unchanged, and the only event is the
cancelling guard's run. -/
theorem guard_false_cancels_witness :
    parseHash "#x".data = some ("x".data, []) ∧
    handleRouteChange routerW "#x".data =
      some (routerW, [REvent.guardRun 1 "x" (some "home")]) := by
  have h := guard_false_cancels routerW "#x".data "x".data [] rfl
    ⟨⟨1, fun _ _ => GRes.bool false⟩, List.mem_singleton.mpr rfl, rfl⟩
  refine ⟨rfl, ?_⟩
  rw [h]
  rfl

/-! ## Query/aggregation engine — `js/modules/charts.js` (array and
calculation utilities) and `js/modules/components.js` (filters, category
totals)

JS numbers are modelled as exact rationals; the claims under verification
concern structure and edge-case policy, not floating-point rounding. -/

/-- An expense record as produced by the form handler. -/
structure Expense where
  id : String
  amount : ℚ
  category : String
  description : String
  date : String
  deriving DecidableEq

/-- `CATEGORIES` from components.js: key, icon, display name. -/
def CATEGORIES : List (String × String × String) :=
  [("food", "🍔", "Food"), ("travel", "✈️", "Travel"), ("shopping", "🛍️", "Shopping"),
   ("bills", "📄", "Bills"), ("entertainment", "🎬", "Entertainment"),
   ("health", "💊", "Health"), ("other", "📦", "Other")]

/-- `totals[cat] += amount` on the totals object; no effect on a key that
is not present (the code guards with `hasOwnProperty` anyway). -/
def addAmount : List (String × ℚ) → String → ℚ → List (String × ℚ)
  | [], _, _ => []
  | (k, v) :: rest, key, amount =>
      if k = key then (k, v + amount) :: rest else (k, v) :: addAmount rest key amount

/-- `calculateCategoryTotals(expenses)`: initialize every key of
`CATEGORIES` to 0, then add each record's amount to its category's total —
but only when the totals object has that category as an own property;
records with unknown categories are skipped. -/
def calculateCategoryTotals (expenses : List Expense) : List (String × ℚ) :=
  expenses.foldl
    (fun totals exp =>
      if (lookupKey totals exp.category).isSome then
        addAmount totals exp.category exp.amount
      else totals)
    (CATEGORIES.map (fun c => (c.1, (0 : ℚ))))

/-- The result record of `calculateStats`. -/
structure Stats where
  sum : ℚ
  avg : ℚ
  min : ℚ
  max : ℚ
  count : Nat
  deriving DecidableEq

/-- `calculateStats(numbers)`: all-zero on the empty array, otherwise
`reduce`-sum, `sum / length` average, `Math.min`/`Math.max` spread over the
elements, and the length. -/
def calculateStats (numbers : List ℚ) : Stats :=
  match numbers with
  | [] => ⟨0, 0, 0, 0, 0⟩
  | x :: xs =>
      let s := (x :: xs).foldl (· + ·) 0
      ⟨s, s / ((x :: xs).length : ℚ), xs.foldl min x, xs.foldl max x, (x :: xs).length⟩

/-- Digits of a decimal numeral to a number (`new Date` component parse). -/
def digitsToNat (l : List Char) : Nat :=
  l.foldl (fun acc c => acc * 10 + (c.toNat - '0'.toNat)) 0

/-- `new Date(s).getTime()` for an ISO `YYYY-MM-DD` date string, as an
order-isomorphic numeric code (lexicographic in year, month, day — exactly
the order of the corresponding timestamps). -/
def dateCode (s : String) : Nat :=
  match splitOnChar '-' s.data with
  | [y, m, d] => digitsToNat y * 10000 + digitsToNat m * 100 + digitsToNat d
  | _ => 0

/-- `a[prop]` for the two sort keys named by the spec, dates compared
through their timestamp code. -/
def propVal (prop : String) (e : Expense) : ℚ :=
  if prop = "date" then (dateCode e.date : ℚ) else e.amount

/-- The comparator `sortBy` hands to `Array.prototype.sort`: it returns
only `1` or `-1`, never `0`, so on a tie it answers `-1` in both argument
orders — it is not a consistent comparison function. -/
def sortCmp (prop order : String) (a b : Expense) : Int :=
  let valA := propVal prop a
  let valB := propVal prop b
  if order = "asc" then (if valA > valB then 1 else -1)
  else (if valA < valB then 1 else -1)

/-- The ECMAScript contract of `[...arr].sort(comparefn)`: the output is a
permutation of the input in which no adjacent pair is inverted with respect
to the comparator.  For a comparator that is not consistent — such as
`sortCmp` — ECMAScript leaves the sort order implementation-defined, so the
engine may produce any comparator-compatible permutation; the relation
collects exactly those. -/
def SortResult (c : Expense → Expense → Int) (input output : List Expense) : Prop :=
  output.Perm input ∧ output.Chain' (fun a b => c a b ≤ 0)

/-- The `FilterSpec` consumed by `applyFilters`; empty string means the
field is absent (JS falsiness). -/
structure Filters where
  searchQuery : String
  category : String
  dateRange : String
  sortBy : String
  deriving DecidableEq

/-- Case-folded characters of a string (`toLowerCase`). -/
def toLowerStr (s : String) : List Char := s.data.map Char.toLower

/-- Leading-match test used by `strIncludes`. -/
def isPrefOf : List Char → List Char → Bool
  | [], _ => true
  | _ :: _, [] => false
  | a :: as, b :: bs => a == b && isPrefOf as bs

/-- JS `String.prototype.includes`. -/
def strIncludes (needle : List Char) : List Char → Bool
  | [] => isPrefOf needle []
  | c :: rest => isPrefOf needle (c :: rest) || strIncludes needle rest

/-- Stages (a)–(c) of `applyFilters`: the search, category and date-range
filters, in source order.  The date-range stage filters with a predicate
computed from `getDateRange(filters.dateRange)` and the wall clock; it
enters here as the function `inRange`, and the verified statements hold for
every such predicate. -/
def filterStage (inRange : Expense → Bool) (expenses : List Expense) (f : Filters) :
    List Expense :=
  let r1 := if f.searchQuery ≠ "" then
      expenses.filter (fun e =>
        strIncludes (toLowerStr f.searchQuery) (toLowerStr e.description) ||
        strIncludes (toLowerStr f.searchQuery) (toLowerStr e.category))
    else expenses
  let r2 := if f.category ≠ "" ∧ f.category ≠ "all" then
      r1.filter (fun e => e.category == f.category)
    else r1
  if f.dateRange ≠ "" ∧ f.dateRange ≠ "all" then r2.filter inRange else r2

/-- `applyFilters(expenses, filters)` as a relation: the deterministic
filter stages, then — when `filters.sortBy` is set — any engine-valid
result of `sortBy(result, prop, order)` for
`[prop, order] = filters.sortBy.split('-')`. -/
def ApplyFiltersRel (inRange : Expense → Bool) (expenses : List Expense) (f : Filters)
    (out : List Expense) : Prop :=
  if f.sortBy = "" then out = filterStage inRange expenses f
  else
    let parts := splitOnChar '-' f.sortBy.data
    SortResult
      (sortCmp (String.mk (parts.headD [])) (String.mk ((parts[1]?).getD [])))
      (filterStage inRange expenses f) out

theorem addAmount_keys (l : List (String × ℚ)) (key : String) (amt : ℚ) :
    (addAmount l key amt).map (·.1) = l.map (·.1) := by
  induction l with
  | nil => rfl
  | cons kv rest ih =>
      obtain ⟨k, v⟩ := kv
      by_cases h : k = key
      · simp [addAmount, h]
      · simp [addAmount, h, ih]

theorem lookupKey_addAmount_self (l : List (String × ℚ)) (key : String) (amt q : ℚ)
    (h : lookupKey l key = some q) :
    lookupKey (addAmount l key amt) key = some (q + amt) := by
  induction l with
  | nil => simp [lookupKey] at h
  | cons kv rest ih =>
      obtain ⟨k, v⟩ := kv
      by_cases hk : k = key
      · subst hk
        have hv : v = q := by simpa [lookupKey] using h
        subst hv
        simp [addAmount, lookupKey]
      · have h' : lookupKey rest key = some q := by simpa [lookupKey, hk] using h
        simp [addAmount, hk, lookupKey, ih h']

theorem lookupKey_addAmount_other (l : List (String × ℚ)) (key other : String) (amt : ℚ)
    (hne : other ≠ key) :
    lookupKey (addAmount l key amt) other = lookupKey l other := by
  induction l with
  | nil => rfl
  | cons kv rest ih =>
      obtain ⟨k, v⟩ := kv
      by_cases hk : k = key
      · subst hk
        have hko : ¬ k = other := fun hh => hne hh.symm
        simp [addAmount, lookupKey, hko]
      · by_cases h2 : k = other
        · simp [addAmount, hk, lookupKey, h2, hne]
        · simp [addAmount, hk, lookupKey, h2, ih]

theorem categoryTotals_fold_keys (expenses : List Expense) :
    ∀ totals : List (String × ℚ),
      ((expenses.foldl
        (fun totals exp =>
          if (lookupKey totals exp.category).isSome then
            addAmount totals exp.category exp.amount
          else totals) totals).map (·.1)) = totals.map (·.1) := by
  induction expenses with
  | nil => intro totals; rfl
  | cons e rest ih =>
      intro totals
      rw [List.foldl_cons, ih]
      split
      · exact addAmount_keys _ _ _
      · rfl

theorem categoryTotals_fold_lookup (expenses : List Expense) :
    ∀ (totals : List (String × ℚ)) (cat : String) (q : ℚ),
      lookupKey totals cat = some q →
      lookupKey (expenses.foldl
        (fun totals exp =>
          if (lookupKey totals exp.category).isSome then
            addAmount totals exp.category exp.amount
          else totals) totals) cat =
        some (q + ((expenses.filter (fun e => e.category == cat)).map (·.amount)).sum) := by
  induction expenses with
  | nil =>
      intro totals cat q hq
      simpa using hq
  | cons e rest ih =>
      intro totals cat q hq
      rw [List.foldl_cons]
      by_cases hcat : e.category = cat
      · have hsome : (lookupKey totals e.category).isSome := by
          rw [hcat, hq]
          rfl
        rw [if_pos hsome, hcat,
          ih (addAmount totals cat e.amount) cat (q + e.amount)
            (lookupKey_addAmount_self totals cat e.amount q hq)]
        have hpe : (e.category == cat) = true := by simp [hcat]
        simp only [List.filter_cons, hpe, if_true, List.map_cons, List.sum_cons]
        rw [add_assoc]
      · have hpe : (e.category == cat) = false := by simp [hcat]
        by_cases hsome : (lookupKey totals e.category).isSome
        · rw [if_pos hsome,
            ih (addAmount totals e.category e.amount) cat q
              (by
                rw [lookupKey_addAmount_other totals e.category cat e.amount
                  (fun hh => hcat hh.symm)]
                exact hq)]
          simp [List.filter_cons, hpe]
        · rw [if_neg hsome, ih totals cat q hq]
          simp [List.filter_cons, hpe]

/-- C7 counterexample: a record with the unknown category `gifts` is NOT
folded into the `other` bucket — `calculateCategoryTotals` skips it
(`hasOwnProperty` guard), so `other` stays 0 where the claim requires 5. -/
theorem categoryTotals_unknown_not_in_other_cex :
    lookupKey (calculateCategoryTotals [⟨"9", 5, "gifts", "gift", "2024-01-01"⟩]) "other" =
      some 0 ∧ (0 : ℚ) ≠ 5 := by
  constructor
  · norm_num [calculateCategoryTotals, CATEGORIES, lookupKey, addAmount]
  · norm_num

/-- C7 amended: every known category key is present in
`calculateCategoryTotals`'s output, each mapped to the sum of the amounts
of the records carrying exactly that category — so the empty list maps
every known category to 0 — while records whose category is not a known
key are ignored entirely: they contribute to no bucket, not even
`other`. -/
theorem categoryTotals_known_keys (expenses : List Expense) :
    ((calculateCategoryTotals expenses).map (·.1) = CATEGORIES.map (·.1)) ∧
    (calculateCategoryTotals [] = CATEGORIES.map (fun c => (c.1, (0 : ℚ)))) ∧
    (∀ cat ∈ CATEGORIES.map (·.1),
      lookupKey (calculateCategoryTotals expenses) cat =
        some (((expenses.filter (fun e => e.category == cat)).map (·.amount)).sum)) := by
  refine ⟨?_, rfl, ?_⟩
  · rw [show calculateCategoryTotals expenses = expenses.foldl
        (fun totals exp =>
          if (lookupKey totals exp.category).isSome then
            addAmount totals exp.category exp.amount
          else totals) (CATEGORIES.map (fun c => (c.1, (0 : ℚ)))) from rfl,
      categoryTotals_fold_keys expenses]
    simp
  · intro cat hcat
    have h0 : lookupKey (CATEGORIES.map (fun c => (c.1, (0 : ℚ)))) cat = some 0 := by
      fin_cases hcat <;> norm_num [CATEGORIES, lookupKey]
    have h := categoryTotals_fold_lookup expenses (CATEGORIES.map (fun c => (c.1, (0 : ℚ))))
      cat 0 h0
    rw [show calculateCategoryTotals expenses = expenses.foldl
        (fun totals exp =>
          if (lookupKey totals exp.category).isSome then
            addAmount totals exp.category exp.amount
          else totals) (CATEGORIES.map (fun c => (c.1, (0 : ℚ)))) from rfl, h]
    rw [zero_add]

/-- Closed instance of `categoryTotals_known_keys`: a `food` record of 7
lands in the `food` bucket, and the empty list maps every known key to
zero. -/
theorem categoryTotals_known_keys_witness :
    ("food" ∈ CATEGORIES.map (·.1)) ∧
    lookupKey (calculateCategoryTotals [⟨"1", 7, "food", "lunch", "2024-01-02"⟩]) "food" =
      some 7 ∧
    calculateCategoryTotals [] = CATEGORIES.map (fun c => (c.1, (0 : ℚ))) := by
  have h := categoryTotals_known_keys [⟨"1", 7, "food", "lunch", "2024-01-02"⟩]
  refine ⟨by decide, ?_, h.2.1⟩
  rw [h.2.2 "food" (by decide)]
  norm_num

theorem foldl_min_le_init (xs : List ℚ) : ∀ a : ℚ, xs.foldl min a ≤ a := by
  induction xs with
  | nil => intro a; exact le_refl a
  | cons x rest ih =>
      intro a
      exact le_trans (ih (min a x)) (min_le_left a x)

theorem foldl_min_le_mem (xs : List ℚ) : ∀ a y : ℚ, y ∈ xs → xs.foldl min a ≤ y := by
  induction xs with
  | nil => intro a y hy; cases hy
  | cons x rest ih =>
      intro a y hy
      rcases List.mem_cons.mp hy with heq | hmem
      · subst heq
        exact le_trans (foldl_min_le_init rest (min a y)) (min_le_right a y)
      · exact ih (min a x) y hmem

theorem foldl_min_mem (xs : List ℚ) : ∀ a : ℚ, xs.foldl min a ∈ a :: xs := by
  induction xs with
  | nil => intro a; exact List.mem_singleton.mpr rfl
  | cons x rest ih =>
      intro a
      rw [List.foldl_cons]
      rcases List.mem_cons.mp (ih (min a x)) with heq | hmem
      · rw [heq]
        rcases min_choice a x with h | h
        · rw [h]; exact List.mem_cons_self _ _
        · rw [h]; exact List.mem_cons_of_mem _ (List.mem_cons_self _ _)
      · exact List.mem_cons_of_mem _ (List.mem_cons_of_mem _ hmem)

theorem le_foldl_max_init (xs : List ℚ) : ∀ a : ℚ, a ≤ xs.foldl max a := by
  induction xs with
  | nil => intro a; exact le_refl a
  | cons x rest ih =>
      intro a
      exact le_trans (le_max_left a x) (ih (max a x))

theorem mem_le_foldl_max (xs : List ℚ) : ∀ a y : ℚ, y ∈ xs → y ≤ xs.foldl max a := by
  induction xs with
  | nil => intro a y hy; cases hy
  | cons x rest ih =>
      intro a y hy
      rcases List.mem_cons.mp hy with heq | hmem
      · subst heq
        exact le_trans (le_max_right a y) (le_foldl_max_init rest (max a y))
      · exact ih (max a x) y hmem

theorem foldl_max_mem (xs : List ℚ) : ∀ a : ℚ, xs.foldl max a ∈ a :: xs := by
  induction xs with
  | nil => intro a; exact List.mem_singleton.mpr rfl
  | cons x rest ih =>
      intro a
      rw [List.foldl_cons]
      rcases List.mem_cons.mp (ih (max a x)) with heq | hmem
      · rw [heq]
        rcases max_choice a x with h | h
        · rw [h]; exact List.mem_cons_self _ _
        · rw [h]; exact List.mem_cons_of_mem _ (List.mem_cons_self _ _)
      · exact List.mem_cons_of_mem _ (List.mem_cons_of_mem _ hmem)

/-- C9: `calculateStats([])` is the all-zero record — the average of zero
elements is defined as 0, not NaN or an error — and on every non-empty
list the fields are the exact sum, the arithmetic mean `sum / count`, the
minimum, the maximum and the length. -/
theorem calculateStats_correct (numbers : List ℚ) :
    (calculateStats [] = ⟨0, 0, 0, 0, 0⟩) ∧
    (numbers ≠ [] →
      (calculateStats numbers).sum = numbers.sum ∧
      (calculateStats numbers).avg = numbers.sum / (numbers.length : ℚ) ∧
      (calculateStats numbers).count = numbers.length ∧
      ((calculateStats numbers).min ∈ numbers ∧
        ∀ y ∈ numbers, (calculateStats numbers).min ≤ y) ∧
      ((calculateStats numbers).max ∈ numbers ∧
        ∀ y ∈ numbers, y ≤ (calculateStats numbers).max)) := by
  refine ⟨rfl, ?_⟩
  intro hne
  cases numbers with
  | nil => exact absurd rfl hne
  | cons x xs =>
      have hsum : (calculateStats (x :: xs)).sum = (x :: xs).sum := by
        show (x :: xs).foldl (· + ·) 0 = (x :: xs).sum
        rw [List.sum_eq_foldl]
      refine ⟨hsum, ?_, rfl, ⟨foldl_min_mem xs x, ?_⟩, ⟨foldl_max_mem xs x, ?_⟩⟩
      · show (x :: xs).foldl (· + ·) 0 / (((x :: xs).length : ℕ) : ℚ) =
          (x :: xs).sum / ((x :: xs).length : ℚ)
        rw [List.sum_eq_foldl]
      · intro y hy
        rcases List.mem_cons.mp hy with heq | hmem
        · subst heq
          exact foldl_min_le_init xs y
        · exact foldl_min_le_mem xs x y hmem
      · intro y hy
        rcases List.mem_cons.mp hy with heq | hmem
        · subst heq
          exact le_foldl_max_init xs y
        · exact mem_le_foldl_max xs x y hmem

/-- Closed instance of `calculateStats_correct` at `[10, 20, 30]`,
matching the spec's example `{sum:60, avg:20, min:10, max:30, count:3}`. -/
theorem calculateStats_correct_witness :
    ([(10 : ℚ), 20, 30] ≠ []) ∧
    (calculateStats [(10 : ℚ), 20, 30]).sum = 60 ∧
    (calculateStats [(10 : ℚ), 20, 30]).avg = 20 ∧
    (calculateStats [(10 : ℚ), 20, 30]).count = 3 ∧
    (calculateStats [(10 : ℚ), 20, 30]).min = 10 ∧
    (calculateStats [(10 : ℚ), 20, 30]).max = 30 := by
  have h := (calculateStats_correct [(10 : ℚ), 20, 30]).2 (by simp)
  refine ⟨by simp, ?_, ?_, h.2.2.1, ?_, ?_⟩
  · rw [h.1]
    norm_num
  · rw [h.2.1]
    norm_num
  · norm_num [calculateStats, min_def]
  · norm_num [calculateStats, max_def]

theorem sortCmp_asc_le (prop : String) (a b : Expense)
    (h : sortCmp prop "asc" a b ≤ 0) : propVal prop a ≤ propVal prop b := by
  by_contra hcon
  push_neg at hcon
  have h1 : sortCmp prop "asc" a b = 1 := by
    unfold sortCmp
    rw [if_pos rfl]
    exact if_pos hcon
  rw [h1] at h
  norm_num at h

theorem sortCmp_desc_le (prop order : String) (hord : order ≠ "asc") (a b : Expense)
    (h : sortCmp prop order a b ≤ 0) : propVal prop b ≤ propVal prop a := by
  by_contra hcon
  push_neg at hcon
  have h1 : sortCmp prop order a b = 1 := by
    unfold sortCmp
    rw [if_neg hord]
    exact if_pos hcon
  rw [h1] at h
  norm_num at h

/-- Two records tied on amount, distinguished by id/description/date. -/
def expA : Expense := ⟨"1", 10, "food", "a", "2024-01-01"⟩

/-- The second record of the tied pair. -/
def expB : Expense := ⟨"2", 10, "food", "b", "2024-01-02"⟩

/-- A `FilterSpec` with no filters and an `amount` ascending sort. -/
def filtersAmountAsc : Filters := ⟨"", "all", "all", "amount-asc"⟩

/-- C8 counterexample: the comparator returns only `1`/`-1`, never `0`, so
it is not a consistent comparison function on ties, and ECMAScript then
leaves the sort order implementation-defined.  Reversing the tied pair is a
conforming result of `applyFilters`: for the input `[expA, expB]` (tied on
amount) the output `[expB, expA]` satisfies the sort contract, yet the two
tied records do not appear in their original relative order. -/
theorem applyFilters_sort_not_stable_cex :
    ApplyFiltersRel (fun _ => true) [expA, expB] filtersAmountAsc [expB, expA] ∧
    propVal "amount" expA = propVal "amount" expB ∧ expA ≠ expB := by
  refine ⟨?_, by simp +decide [propVal, expA, expB], by decide⟩
  unfold ApplyFiltersRel
  rw [if_neg (by decide : ¬ filtersAmountAsc.sortBy = "")]
  constructor
  · exact List.Perm.swap expA expB []
  · show List.Chain' (fun a b => sortCmp "amount" "asc" a b ≤ 0) [expB, expA]
    simp +decide [List.chain'_cons, List.chain'_singleton, sortCmp, propVal, expA, expB]

/-- C8 amended: with a sort key set, every engine-conforming result of
`applyFilters` is a permutation of the filtered records ordered by the
requested key and direction (adjacent keys non-decreasing for `asc`,
non-increasing otherwise); the relative order of records tied on the sort
key is implementation-defined — the comparator never returns `0` and breaks
no tie by original index — rather than guaranteed stable. -/
theorem applyFilters_sort_amended (inRange : Expense → Bool) (expenses : List Expense)
    (f : Filters) (out : List Expense) (prop order : String)
    (hsb : ¬ f.sortBy = "")
    (hsplit : splitOnChar '-' f.sortBy.data = [prop.data, order.data])
    (h : ApplyFiltersRel inRange expenses f out) :
    out.Perm (filterStage inRange expenses f) ∧
    (order = "asc" → out.Chain' (fun a b => propVal prop a ≤ propVal prop b)) ∧
    (order ≠ "asc" → out.Chain' (fun a b => propVal prop b ≤ propVal prop a)) := by
  unfold ApplyFiltersRel at h
  rw [if_neg hsb, hsplit] at h
  have h2 : out.Chain' (fun a b => sortCmp prop order a b ≤ 0) := h.2
  refine ⟨h.1, ?_, ?_⟩
  · intro hasc
    subst hasc
    exact List.Chain'.imp (fun a b hab => sortCmp_asc_le prop a b hab) h2
  · intro hord
    exact List.Chain'.imp (fun a b hab => sortCmp_desc_le prop order hord a b hab) h2

/-- Closed instance of `applyFilters_sort_amended`: the already-ordered
output `[expA, expB]` is a conforming sort result, a permutation of the
filtered input with non-decreasing amounts. -/
theorem applyFilters_sort_amended_witness :
    (¬ filtersAmountAsc.sortBy = "") ∧
    splitOnChar '-' filtersAmountAsc.sortBy.data = ["amount".data, "asc".data] ∧
    [expA, expB].Perm (filterStage (fun _ => true) [expA, expB] filtersAmountAsc) ∧
    List.Chain' (fun a b => propVal "amount" a ≤ propVal "amount" b) [expA, expB] := by
  have hrel : ApplyFiltersRel (fun _ => true) [expA, expB] filtersAmountAsc [expA, expB] := by
    unfold ApplyFiltersRel
    rw [if_neg (by decide : ¬ filtersAmountAsc.sortBy = "")]
    constructor
    · exact List.Perm.refl [expA, expB]
    · show List.Chain' (fun a b => sortCmp "amount" "asc" a b ≤ 0) [expA, expB]
      simp +decide [List.chain'_cons, List.chain'_singleton, sortCmp, propVal, expA, expB]
  have h := applyFilters_sort_amended (fun _ => true) [expA, expB] filtersAmountAsc
    [expA, expB] "amount" "asc" (by decide) (by decide) hrel
  exact ⟨by decide, by decide, h.1, h.2.1 rfl⟩

end ExpenseTracker
